import Mathlib

/-!
Verification of the EtherGuard routing core (`path` package and the
supernode coordinator in `main_super.go`).

Latencies are measured in seconds and stored as Go `float64`; we model the
numeric values as exact rationals (`ℚ`), except for the edge-mode jitter
quantization, which uses `math.Pow` with fractional exponents and is
therefore modelled over `ℝ` with `Real.rpow`.  Times (`time.Time`) are
modelled as rational instants, `t1.After(t2)` becoming `t2 < t1`.
Go maps are modelled as association lists (iteration order being the list
order) or, for the dist/next tables, as total functions updated pointwise;
a read of a missing key yields the Go zero value (`0`, `nil`).
-/

namespace EG

set_option maxRecDepth 1000000

abbrev Vertex := ℕ

/-- `const Infinity = float64(99999)` from path.go. -/
def Infinity : ℚ := 99999

/-- The `Latency` record of path.go: current ping, the ping used by the last
APSP run, and the update timestamp. -/
structure Latency where
  ping : ℚ
  ping_old : ℚ
  time : ℚ
deriving DecidableEq, Repr

/-- The graph `IG` of path.go, restricted to the fields the routing core
reads.  `Vert` is the key list of the Go vertex map, `edges` maps a source
vertex to the association list of its outgoing `Latency` records. -/
structure IG where
  Vert : List Vertex
  edges : Vertex → List (Vertex × Latency)
  StaticMode : Bool
  JitterTolerance : ℚ
  JitterToleranceMultiplier : ℚ
  NodeReportTimeout : ℚ
  IsSuperMode : Bool

/-- Lookup of `g.edges[u][v]` (missing outer and missing inner key are both
`none`). -/
def edgeLookup (g : IG) (u v : Vertex) : Option Latency :=
  ((g.edges u).find? (fun p => p.1 = v)).map Prod.snd

/-- `Neighbors` of path.go: the keys of `g.edges[v]`. -/
def Neighbors (g : IG) (v : Vertex) : List Vertex :=
  (g.edges v).map Prod.fst

/-- `Weight(u,v)` of path.go: `0` on the diagonal, `Infinity` for a missing
edge or an edge whose timestamp is older than `NodeReportTimeout`, else the
stored `ping`. -/
def Weight (g : IG) (now : ℚ) (u v : Vertex) : ℚ :=
  if u = v then 0
  else
    match edgeLookup g u v with
    | none => Infinity
    | some l => if l.time + g.NodeReportTimeout < now then Infinity else l.ping

/-- `OldWeight(u,v)` of path.go: like `Weight` but reading `ping_old` and
without the staleness test. -/
def OldWeight (g : IG) (u v : Vertex) : ℚ :=
  if u = v then 0
  else
    match edgeLookup g u v with
    | none => Infinity
    | some l => l.ping_old

/-- `SetWeight(u,v,weight)` of path.go: overwrite `ping` when the edge
exists, otherwise do nothing. -/
def SetWeight (g : IG) (u v : Vertex) (w : ℚ) : IG :=
  { g with
    edges := fun a =>
      if a = u then
        (g.edges u).map (fun p => if p.1 = v then (p.1, { p.2 with ping := w }) else p)
      else g.edges a }

/-- `RemoveAllNegativeValue` of path.go: clamp every currently negative
`Weight` to `0` (iterating over the vertex set twice). -/
def RemoveAllNegativeValue (g : IG) (now : ℚ) : IG :=
  g.Vert.foldl
    (fun g1 u =>
      g.Vert.foldl (fun g2 v => if Weight g2 now u v < 0 then SetWeight g2 u v 0 else g2) g1)
    g

/-- The mutable state of a Floyd-Warshall run: the dist and next tables.
Reads of entries never written yield the Go zero values `0` and `nil`. -/
structure FWState where
  D : Vertex → Vertex → ℚ
  N : Vertex → Vertex → Option Vertex

def updD (s : FWState) (u v : Vertex) (x : ℚ) : FWState :=
  { s with D := fun a b => if a = u ∧ b = v then x else s.D a b }

def updN (s : FWState) (u v : Vertex) (x : Option Vertex) : FWState :=
  { s with N := fun a b => if a = u ∧ b = v then x else s.N a b }

/-- One row of the initialization loop of `FloydWarshall`:
`dist[u][v] = Infinity` for every vertex `v`, `dist[u][u] = 0`, then for each
neighbor `v` with finite weight `dist[u][v] = w` and `next[u][v] = &v`.
(The accompanying `SetOldWeight(u, v, w)` of the source touches only the
`ping_old` field, which the produced tables never read; the graph is treated
as read-only here.) -/
def FWinitRow (g : IG) (now : ℚ) (s : FWState) (u : Vertex) : FWState :=
  let s1 := g.Vert.foldl (fun s v => updD s u v Infinity) s
  let s2 := updD s1 u u 0
  (Neighbors g u).foldl
    (fun s v =>
      let w := Weight g now u v
      if w < Infinity then updN (updD s u v w) u v (some v) else s)
    s2

def FWinit (g : IG) (now : ℚ) : FWState :=
  g.Vert.foldl (FWinitRow g now) { D := fun _ _ => 0, N := fun _ _ => none }

/-- The relaxation body of the triple loop: when `dist[i][k]` and
`dist[k][j]` are finite and improve on `dist[i][j]`, update it and copy
`next[i][j] = next[i][k]`. -/
def relax (k : Vertex) (s : FWState) (i j : Vertex) : FWState :=
  if s.D i k < Infinity ∧ s.D k j < Infinity then
    if s.D i j > s.D i k + s.D k j then
      updN (updD s i j (s.D i k + s.D k j)) i j (s.N i k)
    else s
  else s

/-- The two inner loops of the triple loop, for a fixed intermediate `k`. -/
def FWround (g : IG) (k : Vertex) (s : FWState) : FWState :=
  g.Vert.foldl (fun s i => g.Vert.foldl (fun s j => relax k s i j) s) s

def FWloop (g : IG) (s : FWState) : FWState :=
  g.Vert.foldl (fun s k => FWround g k s) s

/-- One pass of the Floyd-Warshall algorithm (initialization plus triple
loop), without the negative-diagonal check. -/
def FloydWarshallOnce (g : IG) (now : ℚ) : FWState :=
  FWloop g (FWinit g now)

/-- The final `dist[i][i] < 0` scan of `FloydWarshall`. -/
def hasNegDiag (g : IG) (s : FWState) : Bool :=
  g.Vert.any (fun i => decide (s.D i i < 0))

/-- A freshly made empty dist table (reads yield the zero value). -/
def emptyD : Vertex → Vertex → ℚ := fun _ _ => 0

/-- A freshly made empty next table. -/
def emptyN : Vertex → Vertex → Option Vertex := fun _ _ => none

/-- `FloydWarshall(true)` of path.go (the retry): run one pass; a negative
diagonal entry yields freshly made empty tables and a hard error. -/
def FloydWarshallAgain (g : IG) (now : ℚ) :
    (Vertex → Vertex → ℚ) × (Vertex → Vertex → Option Vertex) × Option String :=
  let s := FloydWarshallOnce g now
  if hasNegDiag g s then (emptyD, emptyN, some "negative cycle detected again!")
  else (s.D, s.N, none)

/-- `FloydWarshall(again)` of path.go: run one pass; on a negative diagonal
entry either (first run, `again = false`) clamp the negative edge weights,
retry once and return the retry's tables together with the first error, or
(`again = true`) return empty tables with an error. -/
def FloydWarshall (again : Bool) (g : IG) (now : ℚ) :
    (Vertex → Vertex → ℚ) × (Vertex → Vertex → Option Vertex) × Option String :=
  if again then FloydWarshallAgain g now
  else
    let s := FloydWarshallOnce g now
    if hasNegDiag g s then
      let r := FloydWarshallAgain (RemoveAllNegativeValue g now) now
      (r.1, r.2.1, some "negative cycle detected")
    else (s.D, s.N, none)

/-- The body of `Path`'s while loop, with explicit fuel: from `u`, follow
`next[u][v]` appending each hop until `v` is reached.  `none` models the two
ways the Go loop fails to produce a path: dereferencing a missing next-hop
entry (a nil-pointer panic) or never reaching `v` (the loop does not
terminate within any finite number of iterations). -/
def PathLoop (next : Vertex → Vertex → Option Vertex) (v : Vertex) :
    ℕ → Vertex → List Vertex → Option (List Vertex)
  | fuel + 1, u, acc =>
    if u = v then some acc
    else
      match next u v with
      | some w => PathLoop next v fuel w (acc ++ [w])
      | none => none
  | 0, u, acc => if u = v then some acc else none

/-- `Path(u, v, next)` of path.go: the empty path when `next[u][v]` is nil,
otherwise the chain of next-hops from `u` to `v`. -/
def Path (fuel : ℕ) (u v : Vertex) (next : Vertex → Vertex → Option Vertex) :
    Option (List Vertex) :=
  match next u v with
  | none => some []
  | some _ => PathLoop next v fuel u [u]

/-- `GetBoardcastList(id)` of path.go: the set of next-hop values of row
`id` of the next table. -/
def GetBoardcastList (next : Vertex → Vertex → Option Vertex) (id : Vertex) : Set Vertex :=
  { m | ∃ v, next id v = some m }

/-- `GetBoardcastThroughList(self_id, in_id, src_id)` of path.go: the
next-hop neighbors `c` of `self_id` such that some node of
`Path(src_id, c)` equals `self_id` and `c ≠ in_id`. -/
def GetBoardcastThroughList (fuel : ℕ) (next : Vertex → Vertex → Option Vertex)
    (self_id in_id src_id : Vertex) : Set Vertex :=
  { c | c ∈ GetBoardcastList next self_id ∧
        (∃ p, Path fuel src_id c next = some p ∧ self_id ∈ p) ∧ c ≠ in_id }

/-- The spec's description of the broadcast-through list: the subset of
`broadcast_list(self)` whose members lie behind `self` on the precomputed
shortest path from `src` and are not the ingress peer. -/
def broadcast_through_list_spec (fuel : ℕ) (next : Vertex → Vertex → Option Vertex)
    (self_id in_id src_id : Vertex) : Set Vertex :=
  { n | n ∈ GetBoardcastList next self_id ∧ n ≠ in_id ∧
        ∃ p, Path fuel src_id n next = some p ∧ self_id ∈ p }

/-- `GetWeightType` of path.go over the reals: with jitter tolerance `t` and
multiplier `r` taken from the graph configuration, quantize `|x|` to
`⌈(|x|/t)^(1/r)⌉^r · t` when `t > 0.001` and `r > 1`, else return `|x|`.
`math.Pow` is `Real.rpow`; `math.Ceil` is `Int.ceil`. -/
noncomputable def GetWeightType (t r x : ℝ) : ℝ :=
  let x' := |x|
  if 0.001 < t ∧ 1 < r then
    Real.rpow ((⌈Real.rpow (x' / t) (1 / r)⌉ : ℤ) : ℝ) r * t
  else x'

/-- `ShouldUpdate(u, v, newval)` of path.go: compare the stored old weight
and the new measurement, both scaled to milliseconds and taken in absolute
value; in supernode mode use the additive-plus-multiplicative tolerance
test (for `t > 0.001`, `r ≥ 1`), in edge mode compare the quantizations. -/
def ShouldUpdate (g : IG) (u v : Vertex) (newval : ℚ) : Prop :=
  let oldval : ℚ := |OldWeight g u v * 1000|
  let newv : ℚ := |newval * 1000|
  if g.IsSuperMode then
    if 1 / 1000 < g.JitterTolerance ∧ 1 ≤ g.JitterToleranceMultiplier then
      |newv - oldval| > g.JitterTolerance + max oldval newv * (g.JitterToleranceMultiplier - 1)
    else oldval = newv
  else
    GetWeightType (g.JitterTolerance : ℝ) (g.JitterToleranceMultiplier : ℝ) (oldval : ℝ) ≠
      GetWeightType (g.JitterTolerance : ℝ) (g.JitterToleranceMultiplier : ℝ) (newv : ℝ)

/-- The spec's edge-mode quantization `Q(v) = ⌈(v/t)^(1/r)⌉^r · t`. -/
noncomputable def Q_spec (t r v : ℝ) : ℝ :=
  Real.rpow ((⌈Real.rpow (v / t) (1 / r)⌉ : ℤ) : ℝ) r * t

/-- The spec's description of `Weight`: 0 on the diagonal, `+∞` for an
absent or stale edge, else `ping + additional_cost(v)` where `ac` is the
additive cost configured for the target vertex. -/
def Weight_spec (ac : Vertex → ℚ) (g : IG) (now : ℚ) (u v : Vertex) : ℚ :=
  if u = v then 0
  else
    match edgeLookup g u v with
    | none => Infinity
    | some l => if l.time + g.NodeReportTimeout < now then Infinity else l.ping + ac v

/-- The supernode state touched by the pong branch of
`Event_server_event_hendler`: the serialized next-hop table
`http_NhTableStr`, the per-process salt `http_HashSalt`, the published hash
`http_NhTable_Hash` and the graph's copy `graph.NhTableHash` (all byte
strings). -/
structure SuperState where
  NhTableStr : List ℕ
  HashSalt : List ℕ
  NhTable_Hash : List ℕ
  graphNhTableHash : List ℕ

/-- The `changed` branch of the pong handler in main_super.go, parameterized
by the external `json.Marshal` (`marshal`) and the composite
`hex.EncodeToString ∘ md5.Sum` (`md5hex`): marshal the current table, hash
the PREVIOUS `http_NhTableStr` concatenated with the salt, publish that
digest into both hash fields, and only then store the fresh serialization. -/
def Event_server_pong_changed (md5hex : List ℕ → List ℕ)
    (marshal : (Vertex → Vertex → Option Vertex) → List ℕ)
    (st : SuperState) (NhTable : Vertex → Vertex → Option Vertex) : SuperState :=
  let NhTablestr := marshal NhTable
  let new_hash_str_byte := md5hex (st.NhTableStr ++ st.HashSalt)
  { st with
    NhTable_Hash := new_hash_str_byte
    graphNhTableHash := new_hash_str_byte
    NhTableStr := NhTablestr }

/-- The per-peer supernode state (`PeerState` of main_super.go). -/
structure PeerState where
  LastSeen : ℚ
  NhTableState : List ℕ
  PeerInfoState : List ℕ

/-- A transport peer as `PushNhTable` sees it: only its endpoint string
(`GetEndpointDstStr`) matters. -/
structure DevPeer where
  endpointDst : String

/-- Which of the two devices a packet is sent on. -/
inductive DevTag where
  | v4
  | v6
deriving DecidableEq, Repr

/-- The supernode environment read by `PushNhTable`: the timeout, the
current published hash, the `http_PeerState` map (as an association list in
iteration order) and the per-device peer lookup (`LookupPeerByStr`). -/
structure PushEnv where
  NodeReportTimeout : ℚ
  NhTable_Hash : List ℕ
  PeerStateMap : List (String × PeerState)
  dev4 : String → Option DevPeer
  dev6 : String → Option DevPeer

/-- `PushNhTable(force)` of main_super.go, returning the list of
(device, peer) pairs an `UpdateNhTableMsg` is sent to: skip peers whose
`LastSeen + NodeReportTimeout` is not after `now`; for the rest, when
`force` or the peer's acknowledged hash differs from the published one, send
on each device where the peer exists and has a non-empty endpoint. -/
def PushNhTable (env : PushEnv) (force : Bool) (now : ℚ) : List (DevTag × String) :=
  env.PeerStateMap.flatMap fun pp =>
    let pkstr := pp.1
    let peerstate := pp.2
    let isAlive := now < peerstate.LastSeen + env.NodeReportTimeout
    if ¬ isAlive then []
    else if force = true ∨ peerstate.NhTableState ≠ env.NhTable_Hash then
      (match env.dev4 pkstr with
       | some peer => if peer.endpointDst ≠ "" then [(DevTag.v4, pkstr)] else []
       | none => []) ++
      (match env.dev6 pkstr with
       | some peer => if peer.endpointDst ≠ "" then [(DevTag.v6, pkstr)] else []
       | none => [])
    else []

/-- `ValidIP` of conn.go: `for b := range ip { if b != 0 { return true } }`.
The loop variable `b` is the INDEX of the byte, not its value. -/
def ValidIP (ip : List ℕ) : Bool :=
  (List.range ip.length).any (fun b => b != 0)

/-! Concrete graphs used as witnesses and counterexamples. -/

/-- A latency record with equal `ping` and `ping_old` and the given
timestamp. -/
def mkLat (p t : ℚ) : Latency :=
  { ping := p, ping_old := p, time := t }

/-- Two vertices, one fresh edge `1 → 2` of ping `1/2` s. -/
def gC2 : IG :=
  { Vert := [1, 2]
    edges := fun u => if u = 1 then [(2, mkLat (1/2) 0)] else []
    StaticMode := false, JitterTolerance := 5, JitterToleranceMultiplier := 101/100
    NodeReportTimeout := 70, IsSuperMode := true }

/-- A constant additional-cost assignment of 5 s per target vertex. -/
def acC2 : Vertex → ℚ := fun _ => 5

/-- A supernode-mode graph with `t = 5`, `r = 101/100` and a stored old
weight of `3/100` s on the edge `1 → 2`. -/
def gC3 : IG :=
  { Vert := [1, 2]
    edges := fun u => if u = 1 then [(2, mkLat (3/100) 0)] else []
    StaticMode := false, JitterTolerance := 5, JitterToleranceMultiplier := 101/100
    NodeReportTimeout := 70, IsSuperMode := true }

/-- An edge-mode graph with `t = 5` and multiplier exactly `r = 1`, with a
stored old weight of `1/1000` s (1 ms) on the edge `1 → 2`. -/
def gC4 : IG :=
  { Vert := [1, 2]
    edges := fun u => if u = 1 then [(2, mkLat (1/1000) 0)] else []
    StaticMode := false, JitterTolerance := 5, JitterToleranceMultiplier := 1
    NodeReportTimeout := 70, IsSuperMode := false }

/-- An edge-mode graph with `t = 5`, `r = 2` and a stored old weight of
`1/1000` s on the edge `1 → 2`. -/
def gC4w : IG :=
  { Vert := [1, 2]
    edges := fun u => if u = 1 then [(2, mkLat (1/1000) 0)] else []
    StaticMode := false, JitterTolerance := 5, JitterToleranceMultiplier := 2
    NodeReportTimeout := 70, IsSuperMode := false }

/-- The spec's negative-cycle scenario: `1 → 2` of weight 1 and `2 → 1` of
weight −3. -/
def gC5 : IG :=
  { Vert := [1, 2]
    edges := fun u =>
      if u = 1 then [(2, mkLat 1 0)] else if u = 2 then [(1, mkLat (-3) 0)] else []
    StaticMode := false, JitterTolerance := 5, JitterToleranceMultiplier := 101/100
    NodeReportTimeout := 70, IsSuperMode := true }

/-- A single vertex with a stored self-edge `(1,1)`. -/
def gC6 : IG :=
  { Vert := [1]
    edges := fun u => if u = 1 then [(1, mkLat 7 0)] else []
    StaticMode := false, JitterTolerance := 5, JitterToleranceMultiplier := 101/100
    NodeReportTimeout := 70, IsSuperMode := true }

/-- Two vertices, one fresh edge `1 → 2` of ping 1, no self-edges. -/
def gC6w : IG :=
  { Vert := [1, 2]
    edges := fun u => if u = 1 then [(2, mkLat 1 0)] else []
    StaticMode := false, JitterTolerance := 5, JitterToleranceMultiplier := 101/100
    NodeReportTimeout := 70, IsSuperMode := true }

/-- Four vertices on a line `1 → 2 → 3 → 4` where the first edge has the
(admissible for a float latency) negative weight −30000 s and the following
ones are so slow that the partial sums straddle the `Infinity` saturation
threshold 99999. -/
def gC7 : IG :=
  { Vert := [1, 2, 3, 4]
    edges := fun u =>
      if u = 1 then [(2, mkLat (-30000) 0)]
      else if u = 2 then [(3, mkLat 90000 0)]
      else if u = 3 then [(4, mkLat 20000 0)]
      else []
    StaticMode := false, JitterTolerance := 5, JitterToleranceMultiplier := 101/100
    NodeReportTimeout := 70, IsSuperMode := true }

/-- Two vertices, one fresh positive edge `1 → 2`, used to instantiate the
nonnegative-weight path theorem. -/
def gC7w : IG :=
  { Vert := [1, 2]
    edges := fun u => if u = 1 then [(2, mkLat 1 0)] else []
    StaticMode := false, JitterTolerance := 5, JitterToleranceMultiplier := 101/100
    NodeReportTimeout := 70, IsSuperMode := true }

/-! Analysis-layer definitions for the Floyd-Warshall next-table
invariants. -/

/-- The relaxation trigger of round `k` at pair `(a, b)`, in terms of a
fixed state: both partial distances are finite and their sum improves on
the current entry. -/
def Fire (s : FWState) (k a b : Vertex) : Prop :=
  s.D a k < Infinity ∧ s.D k b < Infinity ∧ s.D a k + s.D k b < s.D a b

instance (s : FWState) (k a b : Vertex) : Decidable (Fire s k a b) :=
  decidable_of_iff
    (s.D a k < Infinity ∧ s.D k b < Infinity ∧ s.D a k + s.D k b < s.D a b) Iff.rfl

/-- One next-hop arc toward the fixed target `t`. -/
def StepRel (N : Vertex → Vertex → Option Vertex) (t a b : Vertex) : Prop :=
  N a t = some b ∧ a ≠ t

/-- The next table has no cycle of next-hop arcs toward any target. -/
def NoCycles (N : Vertex → Vertex → Option Vertex) : Prop :=
  ∀ t x, ¬ Relation.TransGen (StepRel N t) x x

/-- Per-entry invariant of the tables: a next-hop `m` of `(i, j)` is a
vertex other than `i`, both `dist[i][j]` and `dist[m][j]` are finite, and
the entry dominates the weight of the first hop plus the remaining
distance. -/
def ChainInv (g : IG) (now : ℚ) (s : FWState) : Prop :=
  ∀ i j m, i ≠ j → s.N i j = some m →
    m ∈ g.Vert ∧ m ≠ i ∧ s.D i j < Infinity ∧ s.D m j < Infinity ∧
      Weight g now i m + s.D m j ≤ s.D i j

/-- The full invariant carried through a successful Floyd-Warshall run on a
nonnegative-weight graph. -/
def FWInv (g : IG) (now : ℚ) (s : FWState) : Prop :=
  (∀ a b, 0 ≤ s.D a b) ∧
  (∀ a b, s.D a b ≤ Infinity) ∧
  (∀ a, s.D a a = 0) ∧
  (∀ a b, s.N a b ≠ none → a ∈ g.Vert ∧ b ∈ g.Vert) ∧
  (∀ a b, a ∈ g.Vert → b ∈ g.Vert → a ≠ b → s.D a b < Infinity → s.N a b ≠ none) ∧
  ChainInv g now s ∧ NoCycles s.N

/-- Closed form of the dist table after the initialization loops. -/
def initD (g : IG) (now : ℚ) (a b : Vertex) : ℚ :=
  if b ∈ Neighbors g a ∧ Weight g now a b < Infinity then Weight g now a b
  else if b = a then 0
  else if b ∈ g.Vert then Infinity
  else 0

/-- Closed form of the next table after the initialization loops. -/
def initN (g : IG) (now : ℚ) (a b : Vertex) : Option Vertex :=
  if b ∈ Neighbors g a ∧ Weight g now a b < Infinity then some b else none

/-- The inner `j` loop of a round, over an explicit index list. -/
def relaxRow (k i : Vertex) (J : List Vertex) (s : FWState) : FWState :=
  J.foldl (fun s j => relax k s i j) s

/-- The two nested loops of a round, over explicit index lists. -/
def relaxBlock (k : Vertex) (I J : List Vertex) (s : FWState) : FWState :=
  I.foldl (fun s i => relaxRow k i J s) s

/-! From here on: theorems.  First, small helper lemmas on the state
updates, then the claim theorems. -/

theorem updD_D (s : FWState) (u v : Vertex) (x : ℚ) (a b : Vertex) :
    (updD s u v x).D a b = if a = u ∧ b = v then x else s.D a b := rfl

theorem updD_N (s : FWState) (u v : Vertex) (x : ℚ) (a b : Vertex) :
    (updD s u v x).N a b = s.N a b := rfl

theorem updN_N (s : FWState) (u v : Vertex) (x : Option Vertex) (a b : Vertex) :
    (updN s u v x).N a b = if a = u ∧ b = v then x else s.N a b := rfl

theorem updN_D (s : FWState) (u v : Vertex) (x : Option Vertex) (a b : Vertex) :
    (updN s u v x).D a b = s.D a b := rfl

/-- C10: for every byte slice `ip`, `ValidIP ip` is true iff `ip` has at
least two bytes, independently of the byte values: the Go loop ranges over
indices, so it returns true exactly when some index is nonzero. -/
theorem ValidIP_iff_two_le_length (ip : List ℕ) : ValidIP ip = true ↔ 2 ≤ ip.length := by
  unfold ValidIP
  rw [List.any_eq_true]
  constructor
  · rintro ⟨b, hb, hbne⟩
    rw [List.mem_range] at hb
    have hb0 : b ≠ 0 := by simpa using hbne
    omega
  · intro h
    exact ⟨1, by rw [List.mem_range]; omega, by decide⟩

/-- C1: in the pong branch of the supernode event handler, the value copied
into both `http_NhTable_Hash` and `graph.NhTableHash` is the digest of the
PREVIOUS `http_NhTableStr` concatenated with the salt, while `http_NhTableStr`
is simultaneously replaced by the fresh serialization of the current table:
the published hash is therefore one cycle behind the published table
whenever the serialization changed. -/
theorem Event_server_pong_changed_hashes_stale (md5hex : List ℕ → List ℕ)
    (marshal : (Vertex → Vertex → Option Vertex) → List ℕ)
    (st : SuperState) (tbl : Vertex → Vertex → Option Vertex) :
    (Event_server_pong_changed md5hex marshal st tbl).NhTable_Hash =
        md5hex (st.NhTableStr ++ st.HashSalt) ∧
      (Event_server_pong_changed md5hex marshal st tbl).graphNhTableHash =
        md5hex (st.NhTableStr ++ st.HashSalt) ∧
      (Event_server_pong_changed md5hex marshal st tbl).NhTableStr = marshal tbl :=
  ⟨rfl, rfl, rfl⟩

/-- C2, counterexample: on a concrete graph with a fresh edge `1 → 2` of
ping `1/2` and a configured additional cost of 5 for every target, `Weight`
returns the bare ping `1/2`, not `ping + additional_cost(v)` as the claim
states. -/
theorem Weight_counterexample :
    Weight gC2 0 1 2 = 1/2 ∧ Weight_spec acC2 gC2 0 1 2 = 1/2 + 5 ∧
      Weight gC2 0 1 2 ≠ Weight_spec acC2 gC2 0 1 2 := by
  with_unfolding_all decide

/-- C2, amended: `Weight(u,v)` returns 0 if `u = v`, `+∞` if the edge is
absent or its timestamp is older than `NodeReportTimeout`, and otherwise the
bare stored `ping`; i.e. it realizes the spec's description with the
additional cost identically zero. -/
theorem Weight_eq_spec_zero_cost (g : IG) (now : ℚ) (u v : Vertex) :
    Weight g now u v = Weight_spec (fun _ => 0) g now u v := by
  unfold Weight Weight_spec
  by_cases h : u = v
  · simp [h]
  · simp only [h, if_false]
    cases edgeLookup g u v with
    | none => rfl
    | some l => by_cases ht : l.time + g.NodeReportTimeout < now <;> simp [ht]

/-- C3: in supernode mode with `t > 0.001` (as a float literal, `1/1000`)
and `r ≥ 1`, `ShouldUpdate(u, v, new)` holds iff `|x − y| > t + max(x,y)·(r−1)`
where `y` is the stored old weight and `x` the new measurement, both in
milliseconds and in absolute value. -/
theorem ShouldUpdate_super_iff (g : IG) (u v : Vertex) (newval : ℚ)
    (hs : g.IsSuperMode = true)
    (ht : 1/1000 < g.JitterTolerance)
    (hr : 1 ≤ g.JitterToleranceMultiplier) :
    ShouldUpdate g u v newval ↔
      |(|newval * 1000|) - (|OldWeight g u v * 1000|)| >
        g.JitterTolerance +
          max (|newval * 1000|) (|OldWeight g u v * 1000|) *
            (g.JitterToleranceMultiplier - 1) := by
  unfold ShouldUpdate
  rw [hs]
  simp only [if_true, if_pos (And.intro ht hr)]
  rw [max_comm]

/-- C3, witness at the concrete supernode graph `gC3` with new measurement
`2/25` s (80 ms against a stored 30 ms). -/
theorem ShouldUpdate_super_iff_witness :
    ShouldUpdate gC3 1 2 (2/25) ↔
      |(|(2/25 : ℚ) * 1000|) - (|OldWeight gC3 1 2 * 1000|)| >
        gC3.JitterTolerance +
          max (|(2/25 : ℚ) * 1000|) (|OldWeight gC3 1 2 * 1000|) *
            (gC3.JitterToleranceMultiplier - 1) :=
  ShouldUpdate_super_iff gC3 1 2 (2/25) (by with_unfolding_all decide)
    (by with_unfolding_all decide) (by with_unfolding_all decide)

/-- C9: `PushNhTable(force)` sends an `UpdateNhTableMsg` on device `d` to
exactly the peers whose `LastSeen` is newer than `now` minus
`NodeReportTimeout` and for which `force` holds or the acknowledged
`NhTableState` differs from the published hash, on each of the v4/v6 devices
where the peer exists with a non-empty destination endpoint; peers failing
the liveness test receive nothing. -/
theorem PushNhTable_mem_iff (env : PushEnv) (force : Bool) (now : ℚ)
    (d : DevTag) (pk : String) :
    (d, pk) ∈ PushNhTable env force now ↔
      ∃ ps, (pk, ps) ∈ env.PeerStateMap ∧
        now - env.NodeReportTimeout < ps.LastSeen ∧
        (force = true ∨ ps.NhTableState ≠ env.NhTable_Hash) ∧
        ∃ p, ((d = DevTag.v4 ∧ env.dev4 pk = some p) ∨
              (d = DevTag.v6 ∧ env.dev6 pk = some p)) ∧
          p.endpointDst ≠ "" := by
  unfold PushNhTable
  rw [List.mem_flatMap]
  constructor
  · rintro ⟨⟨pk', ps⟩, hmem, hbody⟩
    simp only [not_lt] at hbody
    by_cases hle : ps.LastSeen + env.NodeReportTimeout ≤ now
    · rw [if_pos hle] at hbody; cases hbody
    rw [if_neg hle] at hbody
    by_cases hcond : force = true ∨ ps.NhTableState ≠ env.NhTable_Hash
    swap
    · rw [if_neg hcond] at hbody; cases hbody
    rw [if_pos hcond, List.mem_append] at hbody
    have halive : now - env.NodeReportTimeout < ps.LastSeen := by
      have := not_le.mp hle; linarith
    rcases hbody with h | h
    · rcases h4 : env.dev4 pk' with _ | p <;> rw [h4] at h <;> dsimp only at h
      · cases h
      · by_cases hep : p.endpointDst = ""
        · rw [if_neg (by simp [hep])] at h; cases h
        · rw [if_pos (by simpa using hep)] at h
          simp only [List.mem_singleton, Prod.mk.injEq] at h
          obtain ⟨rfl, rfl⟩ := h
          exact ⟨ps, hmem, halive, hcond, p, Or.inl ⟨rfl, h4⟩, by simpa using hep⟩
    · rcases h6 : env.dev6 pk' with _ | p <;> rw [h6] at h <;> dsimp only at h
      · cases h
      · by_cases hep : p.endpointDst = ""
        · rw [if_neg (by simp [hep])] at h; cases h
        · rw [if_pos (by simpa using hep)] at h
          simp only [List.mem_singleton, Prod.mk.injEq] at h
          obtain ⟨rfl, rfl⟩ := h
          exact ⟨ps, hmem, halive, hcond, p, Or.inr ⟨rfl, h6⟩, by simpa using hep⟩
  · rintro ⟨ps, hmem, halive, hcond, p, hdev, hep⟩
    refine ⟨(pk, ps), hmem, ?_⟩
    have halive' : ¬ ps.LastSeen + env.NodeReportTimeout ≤ now := by
      rw [not_le]; linarith
    simp only [not_lt]
    rw [if_neg halive', if_pos hcond, List.mem_append]
    rcases hdev with ⟨hd, h4⟩ | ⟨hd, h6⟩
    · subst hd; left; rw [h4]; dsimp only; simp [hep]
    · subst hd; right; rw [h6]; dsimp only; simp [hep]

/-- The code's quantization agrees with the spec's formula
`Q(v) = ⌈(v/t)^(1/r)⌉^r · t` on nonnegative inputs whenever the
quantization guard `t > 0.001 ∧ r > 1` holds. -/
theorem GetWeightType_eq_Q_spec (t r x : ℝ) (ht : (0.001 : ℝ) < t) (hr : 1 < r)
    (hx : 0 ≤ x) : GetWeightType t r x = Q_spec t r x := by
  unfold GetWeightType Q_spec
  rw [abs_of_nonneg hx, if_pos (And.intro ht hr)]

/-- C4, counterexample: with the multiplier configured exactly `r = 1`
(allowed by the claim, which reads `r ≥ 1`) and `t = 5`, the code compares
the raw millisecond values (its quantization guard requires `r > 1`), so
`ShouldUpdate` holds for old 1 ms against new 2 ms even though both
quantize to the same bucket `Q = 5` under the spec's formula. -/
theorem ShouldUpdate_edge_counterexample :
    gC4.IsSuperMode = false ∧ gC4.JitterTolerance = 5 ∧
      gC4.JitterToleranceMultiplier = 1 ∧
      ShouldUpdate gC4 1 2 (1/500) ∧
      Q_spec (gC4.JitterTolerance : ℝ) (gC4.JitterToleranceMultiplier : ℝ)
          ((|OldWeight gC4 1 2 * 1000| : ℚ) : ℝ) =
        Q_spec (gC4.JitterTolerance : ℝ) (gC4.JitterToleranceMultiplier : ℝ)
          ((|(1/500 : ℚ) * 1000| : ℚ) : ℝ) := by
  have hOld : OldWeight gC4 1 2 = 1/1000 := by with_unfolding_all decide
  have h1 : (|(1/1000 : ℚ) * 1000| : ℚ) = 1 := by norm_num
  have h2 : (|(1/500 : ℚ) * 1000| : ℚ) = 2 := by norm_num
  refine ⟨rfl, rfl, rfl, ?_, ?_⟩
  · show GetWeightType (gC4.JitterTolerance : ℝ) (gC4.JitterToleranceMultiplier : ℝ)
        ((|OldWeight gC4 1 2 * 1000| : ℚ) : ℝ) ≠
      GetWeightType (gC4.JitterTolerance : ℝ) (gC4.JitterToleranceMultiplier : ℝ)
        ((|(1/500 : ℚ) * 1000| : ℚ) : ℝ)
    rw [hOld, h1, h2]
    show GetWeightType ((5 : ℚ) : ℝ) ((1 : ℚ) : ℝ) ((1 : ℚ) : ℝ) ≠
      GetWeightType ((5 : ℚ) : ℝ) ((1 : ℚ) : ℝ) ((2 : ℚ) : ℝ)
    unfold GetWeightType
    norm_num
  · rw [hOld, h1, h2]
    show Q_spec ((5 : ℚ) : ℝ) ((1 : ℚ) : ℝ) ((1 : ℚ) : ℝ) =
      Q_spec ((5 : ℚ) : ℝ) ((1 : ℚ) : ℝ) ((2 : ℚ) : ℝ)
    unfold Q_spec
    have hc1 : ⌈(1/5 : ℝ)⌉ = 1 := by
      rw [Int.ceil_eq_iff]
      norm_num
    have hc2 : ⌈(2/5 : ℝ)⌉ = 1 := by
      rw [Int.ceil_eq_iff]
      norm_num
    norm_num [hc1, hc2]

/-- C4, amended: in edge mode with `t > 0.001` and `r > 1` (the code's
quantization guard), `ShouldUpdate(u, v, new)` holds iff
`Q(y) ≠ Q(x)` for the spec's `Q(v) = ⌈(v/t)^(1/r)⌉^r · t` applied to the
old and the new value in milliseconds taken in absolute value. -/
theorem ShouldUpdate_edge_iff (g : IG) (u v : Vertex) (newval : ℚ)
    (hs : g.IsSuperMode = false)
    (ht : 1/1000 < g.JitterTolerance)
    (hr : 1 < g.JitterToleranceMultiplier) :
    ShouldUpdate g u v newval ↔
      Q_spec (g.JitterTolerance : ℝ) (g.JitterToleranceMultiplier : ℝ)
          ((|OldWeight g u v * 1000| : ℚ) : ℝ) ≠
        Q_spec (g.JitterTolerance : ℝ) (g.JitterToleranceMultiplier : ℝ)
          ((|newval * 1000| : ℚ) : ℝ) := by
  have ht' : (0.001 : ℝ) < (g.JitterTolerance : ℝ) := by
    have : ((1/1000 : ℚ) : ℝ) < (g.JitterTolerance : ℝ) := by exact_mod_cast ht
    calc (0.001 : ℝ) = ((1/1000 : ℚ) : ℝ) := by norm_num
    _ < _ := this
  have hr' : (1 : ℝ) < (g.JitterToleranceMultiplier : ℝ) := by exact_mod_cast hr
  unfold ShouldUpdate
  rw [hs]
  simp only [Bool.false_eq_true, if_false]
  rw [GetWeightType_eq_Q_spec _ _ _ ht' hr' (by positivity),
    GetWeightType_eq_Q_spec _ _ _ ht' hr' (by positivity)]

/-- C4, witness: the amended equivalence instantiated at the edge-mode
graph `gC4w` (`t = 5`, `r = 2`) and new measurement `1/500` s. -/
theorem ShouldUpdate_edge_iff_witness :
    ShouldUpdate gC4w 1 2 (1/500) ↔
      Q_spec (gC4w.JitterTolerance : ℝ) (gC4w.JitterToleranceMultiplier : ℝ)
          ((|OldWeight gC4w 1 2 * 1000| : ℚ) : ℝ) ≠
        Q_spec (gC4w.JitterTolerance : ℝ) (gC4w.JitterToleranceMultiplier : ℝ)
          ((|(1/500 : ℚ) * 1000| : ℚ) : ℝ) :=
  ShouldUpdate_edge_iff gC4w 1 2 (1/500) (by with_unfolding_all decide)
    (by with_unfolding_all decide) (by with_unfolding_all decide)

/-- C8: `GetBoardcastThroughList(self, in, src)` equals the subset of
`broadcast_list(self)` whose members see `self` on the precomputed path
from `src` and are not the ingress peer `in`; in particular the result
never contains `in`. -/
theorem GetBoardcastThroughList_correct (fuel : ℕ)
    (next : Vertex → Vertex → Option Vertex) (self_id in_id src_id : Vertex) :
    GetBoardcastThroughList fuel next self_id in_id src_id =
        broadcast_through_list_spec fuel next self_id in_id src_id ∧
      in_id ∉ GetBoardcastThroughList fuel next self_id in_id src_id := by
  constructor
  · ext c
    simp only [GetBoardcastThroughList, broadcast_through_list_spec, Set.mem_setOf_eq]
    tauto
  · intro h
    exact h.2.2 rfl

/-- C5: when the first Floyd-Warshall pass leaves a negative diagonal
entry, exactly one repair runs: the negative edge weights are clamped to 0
(`RemoveAllNegativeValue`) and one retry pass runs on the clamped graph; if
the retry still has a negative diagonal entry the result is freshly made
empty tables together with an error, otherwise the retry's tables (the
returned error being, in both cases, the first pass's error). -/
theorem FloydWarshall_negative_cycle_repair (g : IG) (now : ℚ)
    (hneg : hasNegDiag g (FloydWarshallOnce g now) = true) :
    FloydWarshall false g now =
      (if hasNegDiag (RemoveAllNegativeValue g now)
            (FloydWarshallOnce (RemoveAllNegativeValue g now) now) = true
       then (emptyD, emptyN, some "negative cycle detected")
       else ((FloydWarshallOnce (RemoveAllNegativeValue g now) now).D,
             (FloydWarshallOnce (RemoveAllNegativeValue g now) now).N,
             some "negative cycle detected")) := by
  unfold FloydWarshall FloydWarshallAgain
  simp only [Bool.false_eq_true, if_false, hneg, if_true]
  by_cases h2 : hasNegDiag (RemoveAllNegativeValue g now)
      (FloydWarshallOnce (RemoveAllNegativeValue g now) now) = true <;>
    simp [h2]

/-- C5, witness: the spec's negative-cycle scenario (`1 → 2` of weight 1,
`2 → 1` of weight −3) takes the repair path. -/
theorem FloydWarshall_negative_cycle_repair_witness :
    FloydWarshall false gC5 0 =
      (if hasNegDiag (RemoveAllNegativeValue gC5 0)
            (FloydWarshallOnce (RemoveAllNegativeValue gC5 0) 0) = true
       then (emptyD, emptyN, some "negative cycle detected")
       else ((FloydWarshallOnce (RemoveAllNegativeValue gC5 0) 0).D,
             (FloydWarshallOnce (RemoveAllNegativeValue gC5 0) 0).N,
             some "negative cycle detected")) :=
  FloydWarshall_negative_cycle_repair gC5 0 (by with_unfolding_all decide)

/-- Fold induction: a predicate preserved by every step applied to a list
member holds of the fold result. -/
theorem foldl_mem_induction {α β : Type} (f : α → β → α) (P : α → Prop) :
    ∀ (l : List β) (s : α), (∀ a b, b ∈ l → P a → P (f a b)) → P s → P (l.foldl f s) := by
  intro l
  induction l with
  | nil => intro s _ hs; exact hs
  | cons c l ih =>
    intro s h hs
    rw [List.foldl_cons]
    exact ih (f s c) (fun a b hb => h a b (List.mem_cons_of_mem _ hb))
      (h s c (List.mem_cons_self _ _) hs)

theorem Weight_diag (g : IG) (now : ℚ) (u : Vertex) : Weight g now u u = 0 := by
  unfold Weight
  simp

theorem relax_D_of_ne (k : Vertex) (s : FWState) (i j a b : Vertex)
    (h : ¬ (a = i ∧ b = j)) : (relax k s i j).D a b = s.D a b := by
  unfold relax
  split_ifs <;> simp [updN_D, updD_D, h]

theorem relax_N_of_ne (k : Vertex) (s : FWState) (i j a b : Vertex)
    (h : ¬ (a = i ∧ b = j)) : (relax k s i j).N a b = s.N a b := by
  unfold relax
  split_ifs <;> simp [updN_N, updD_N, h]

theorem relax_D_le (k : Vertex) (s : FWState) (i j a b : Vertex) :
    (relax k s i j).D a b ≤ s.D a b := by
  unfold relax
  split_ifs with h1 h2
  · rw [updN_D, updD_D]
    by_cases hab : a = i ∧ b = j
    · rw [if_pos hab]
      obtain ⟨rfl, rfl⟩ := hab
      exact le_of_lt h2
    · rw [if_neg hab]
  · exact le_refl _
  · exact le_refl _

theorem FWinitRow_D_ne (g : IG) (now : ℚ) (s : FWState) (w a b : Vertex)
    (ha : a ≠ w) : (FWinitRow g now s w).D a b = s.D a b := by
  unfold FWinitRow
  have h2 : ∀ (l : List Vertex) (s0 : FWState),
      (l.foldl (fun s v =>
        let x := Weight g now w v
        if x < Infinity then updN (updD s w v x) w v (some v) else s) s0).D a b = s0.D a b := by
    intro l
    induction l with
    | nil => intro s0; rfl
    | cons c l ih =>
      intro s0
      rw [List.foldl_cons, ih]
      dsimp only
      split_ifs
      · rw [updN_D, updD_D, if_neg (fun hh : a = w ∧ b = c => ha hh.1)]
      · rfl
  have h1 : ∀ (l : List Vertex) (s0 : FWState),
      (l.foldl (fun s v => updD s w v Infinity) s0).D a b = s0.D a b := by
    intro l
    induction l with
    | nil => intro s0; rfl
    | cons c l ih =>
      intro s0
      rw [List.foldl_cons, ih, updD_D, if_neg (fun hh : a = w ∧ b = c => ha hh.1)]
  rw [h2, updD_D, if_neg (fun hh : a = w ∧ b = w => ha hh.1), h1]

theorem FWinitRow_N_ne (g : IG) (now : ℚ) (s : FWState) (w a b : Vertex)
    (ha : a ≠ w) : (FWinitRow g now s w).N a b = s.N a b := by
  unfold FWinitRow
  have h2 : ∀ (l : List Vertex) (s0 : FWState),
      (l.foldl (fun s v =>
        let x := Weight g now w v
        if x < Infinity then updN (updD s w v x) w v (some v) else s) s0).N a b = s0.N a b := by
    intro l
    induction l with
    | nil => intro s0; rfl
    | cons c l ih =>
      intro s0
      rw [List.foldl_cons, ih]
      dsimp only
      split_ifs
      · rw [updN_N, updD_N, if_neg (fun hh : a = w ∧ b = c => ha hh.1)]
      · rfl
  have h1 : ∀ (l : List Vertex) (s0 : FWState),
      (l.foldl (fun s v => updD s w v Infinity) s0).N a b = s0.N a b := by
    intro l
    induction l with
    | nil => intro s0; rfl
    | cons c l ih => intro s0; rw [List.foldl_cons, ih]; rfl
  rw [h2, updD_N, h1]

theorem FWinitRow_D_diag (g : IG) (now : ℚ) (s : FWState) (u : Vertex) :
    (FWinitRow g now s u).D u u = 0 := by
  unfold FWinitRow
  apply foldl_mem_induction
    (P := fun s0 : FWState => s0.D u u = 0)
  · intro a v _ ha
    dsimp only
    split_ifs with hw
    · rw [updN_D, updD_D]
      by_cases hv : u = u ∧ u = v
      · rw [if_pos hv, ← hv.2, Weight_diag]
      · rw [if_neg hv]; exact ha
    · exact ha
  · rw [updD_D]
    simp

theorem FWinitRow_N_diag (g : IG) (now : ℚ) (s : FWState) (u : Vertex)
    (hself : u ∉ Neighbors g u) : (FWinitRow g now s u).N u u = s.N u u := by
  unfold FWinitRow
  have h2 : ∀ (l : List Vertex) (s0 : FWState), (∀ v ∈ l, v ≠ u) →
      (l.foldl (fun s v =>
        let x := Weight g now u v
        if x < Infinity then updN (updD s u v x) u v (some v) else s) s0).N u u = s0.N u u := by
    intro l
    induction l with
    | nil => intro s0 _; rfl
    | cons c l ih =>
      intro s0 hl
      rw [List.foldl_cons, ih _ (fun v hv => hl v (List.mem_cons_of_mem _ hv))]
      dsimp only
      split_ifs
      · rw [updN_N, updD_N]
        have : ¬ (u = u ∧ u = c) := fun h => hl c (List.mem_cons_self _ _) h.2.symm
        rw [if_neg this]
      · rfl
  rw [h2 _ _ (fun v hv hvu => hself (by rwa [hvu] at hv)), updD_N]
  have h1 : ∀ (l : List Vertex) (s0 : FWState),
      (l.foldl (fun s v => updD s u v Infinity) s0).N u u = s0.N u u := by
    intro l
    induction l with
    | nil => intro s0; rfl
    | cons c l ih => intro s0; rw [List.foldl_cons, ih]; rfl
  rw [h1]

theorem FWinit_D_diag (g : IG) (now : ℚ) (u : Vertex) : (FWinit g now).D u u = 0 := by
  unfold FWinit
  apply foldl_mem_induction (P := fun s0 : FWState => s0.D u u = 0)
  · intro a w _ ha
    by_cases hw : u = w
    · subst hw; exact FWinitRow_D_diag g now a u
    · rw [FWinitRow_D_ne g now a w u u hw]; exact ha
  · rfl

theorem FWinit_N_diag (g : IG) (now : ℚ) (u : Vertex) (hself : u ∉ Neighbors g u) :
    (FWinit g now).N u u = none := by
  unfold FWinit
  apply foldl_mem_induction (P := fun s0 : FWState => s0.N u u = none)
  · intro a w _ ha
    by_cases hw : u = w
    · subst hw; rw [FWinitRow_N_diag g now a u hself]; exact ha
    · rw [FWinitRow_N_ne g now a w u u hw]; exact ha
  · rfl

theorem FWloop_diag_inv (g : IG) (s : FWState) (u : Vertex)
    (h : s.D u u ≤ 0 ∧ (s.N u u = none ∨ s.D u u < 0)) :
    (FWloop g s).D u u ≤ 0 ∧ ((FWloop g s).N u u = none ∨ (FWloop g s).D u u < 0) := by
  unfold FWloop FWround
  apply foldl_mem_induction
    (P := fun s0 : FWState => s0.D u u ≤ 0 ∧ (s0.N u u = none ∨ s0.D u u < 0))
  swap
  · exact h
  intro a k _ ha
  apply foldl_mem_induction
    (P := fun s0 : FWState => s0.D u u ≤ 0 ∧ (s0.N u u = none ∨ s0.D u u < 0))
  swap
  · exact ha
  intro a2 i _ ha2
  apply foldl_mem_induction
    (P := fun s0 : FWState => s0.D u u ≤ 0 ∧ (s0.N u u = none ∨ s0.D u u < 0))
  swap
  · exact ha2
  intro a3 j _ ha3
  by_cases hij : u = i ∧ u = j
  · obtain ⟨hi, hj⟩ := hij
    subst hi; subst hj
    unfold relax
    split_ifs with hg hf
    · rw [updN_D, updD_D, if_pos ⟨rfl, rfl⟩]
      have hlt : a3.D u k + a3.D k u < 0 := lt_of_lt_of_le hf ha3.1
      exact ⟨le_of_lt hlt, Or.inr hlt⟩
    · exact ha3
    · exact ha3
  · rw [relax_D_of_ne k a3 i j u u hij, relax_N_of_ne k a3 i j u u hij]
    exact ha3

theorem hasNegDiag_eq_false_iff (g : IG) (s : FWState) :
    hasNegDiag g s = false ↔ ∀ i ∈ g.Vert, ¬ s.D i i < 0 := by
  unfold hasNegDiag
  rw [List.any_eq_false]
  constructor
  · intro h i hi; have := h i hi; simpa using this
  · intro h i hi; simpa using h i hi

theorem FloydWarshall_false_of_success (g : IG) (now : ℚ)
    (h : hasNegDiag g (FloydWarshallOnce g now) = false) :
    FloydWarshall false g now =
      ((FloydWarshallOnce g now).D, (FloydWarshallOnce g now).N, none) := by
  unfold FloydWarshall
  simp [h]

theorem success_of_err_none (g : IG) (now : ℚ)
    (herr : (FloydWarshall false g now).2.2 = none) :
    hasNegDiag g (FloydWarshallOnce g now) = false := by
  by_cases h : hasNegDiag g (FloydWarshallOnce g now) = true
  · exfalso
    unfold FloydWarshall at herr
    simp [h] at herr
  · exact Bool.eq_false_iff.mpr h

/-- C6, counterexample: on a successful run over a graph with a stored
self-edge `(1,1)`, the produced next table has `next[1][1] = 1`, not
`None`: the neighbor initialization writes `next[u][u] = &u` because
`Weight(u,u) = 0 < Infinity` also for a self-loop. -/
theorem FloydWarshall_diag_counterexample :
    1 ∈ gC6.Vert ∧ (FloydWarshall false gC6 0).2.2 = none ∧
      (FloydWarshall false gC6 0).2.1 1 1 = some 1 := by
  with_unfolding_all decide

/-- C6, amended: for every vertex `u` of the graph, a run of
`FloydWarshall(false)` that reports no error yields `dist[u][u] = 0`, and
`next[u][u] = None` provided no self-edge `(u,u)` is stored (a stored
self-edge instead yields `next[u][u] = u`). -/
theorem FloydWarshall_diag (g : IG) (now : ℚ) (u : Vertex)
    (hu : u ∈ g.Vert)
    (hself : edgeLookup g u u = none)
    (herr : (FloydWarshall false g now).2.2 = none) :
    (FloydWarshall false g now).1 u u = 0 ∧ (FloydWarshall false g now).2.1 u u = none := by
  have hND : hasNegDiag g (FloydWarshallOnce g now) = false := success_of_err_none g now herr
  have hres := FloydWarshall_false_of_success g now hND
  have hmem : u ∉ Neighbors g u := by
    intro hmem
    rw [Neighbors, List.mem_map] at hmem
    obtain ⟨p, hp, hfst⟩ := hmem
    have := List.find?_eq_none.mp (by
      unfold edgeLookup at hself
      exact Option.map_eq_none.mp hself) p hp
    simp [hfst] at this
  have hinv := FWloop_diag_inv g (FWinit g now) u
    ⟨le_of_eq (FWinit_D_diag g now u), Or.inl (FWinit_N_diag g now u hmem)⟩
  have hge : ¬ (FloydWarshallOnce g now).D u u < 0 :=
    (hasNegDiag_eq_false_iff g _).mp hND u hu
  have hDuu : (FloydWarshallOnce g now).D u u = 0 :=
    le_antisymm hinv.1 (not_lt.mp hge)
  have hNuu : (FloydWarshallOnce g now).N u u = none := by
    rcases hinv.2 with h | h
    · exact h
    · exact absurd h hge
  rw [hres]
  exact ⟨hDuu, hNuu⟩

/-- C6, witness: the amended statement at the self-loop-free graph `gC6w`. -/
theorem FloydWarshall_diag_witness :
    (FloydWarshall false gC6w 0).1 1 1 = 0 ∧ (FloydWarshall false gC6w 0).2.1 1 1 = none :=
  FloydWarshall_diag gC6w 0 1 (by with_unfolding_all decide)
    (by with_unfolding_all decide) (by with_unfolding_all decide)

/-! Monotonicity of the relaxation loops, and the diagonal bound used to
rule out effective diagonal relaxations on successful runs. -/

theorem foldl_D_mono {β : Type} (f : FWState → β → FWState)
    (hf : ∀ s b a c, (f s b).D a c ≤ s.D a c) :
    ∀ (l : List β) (s : FWState) (a c : Vertex), (l.foldl f s).D a c ≤ s.D a c := by
  intro l
  induction l with
  | nil => intro s a c; exact le_refl _
  | cons x l ih =>
    intro s a c
    rw [List.foldl_cons]
    exact le_trans (ih (f s x) a c) (hf s x a c)

theorem relaxRow_D_mono (k i : Vertex) (J : List Vertex) (s : FWState) (a c : Vertex) :
    (relaxRow k i J s).D a c ≤ s.D a c :=
  foldl_D_mono _ (fun s' j a' c' => relax_D_le k s' i j a' c') J s a c

theorem relaxBlock_D_mono (k : Vertex) (I J : List Vertex) (s : FWState) (a c : Vertex) :
    (relaxBlock k I J s).D a c ≤ s.D a c :=
  foldl_D_mono _ (fun s' i a' c' => relaxRow_D_mono k i J s' a' c') I s a c

theorem FWround_eq_relaxBlock (g : IG) (k : Vertex) (s : FWState) :
    FWround g k s = relaxBlock k g.Vert g.Vert s := rfl

theorem FWround_D_mono (g : IG) (k : Vertex) (s : FWState) (a c : Vertex) :
    (FWround g k s).D a c ≤ s.D a c :=
  relaxBlock_D_mono k g.Vert g.Vert s a c

theorem rounds_D_mono (g : IG) (K : List Vertex) (s : FWState) (a c : Vertex) :
    (K.foldl (fun s k => FWround g k s) s).D a c ≤ s.D a c :=
  foldl_D_mono _ (fun s' k a' c' => FWround_D_mono g k s' a' c') K s a c

theorem foldl_split {α β : Type} (f : α → β → α) (l1 l2 : List β) (x : β) (s : α) :
    (l1 ++ x :: l2).foldl f s = l2.foldl f (f (l1.foldl f s) x) := by
  rw [List.foldl_append, List.foldl_cons]

/-- One diagonal relaxation `(a,a)` in a state whose detour entries are
bounded by a reference state with finite detour halves leaves the diagonal
entry bounded by the reference detour sum. -/
theorem relax_diag_le (k : Vertex) (s0 sB : FWState) (a : Vertex)
    (hBak : sB.D a k ≤ s0.D a k) (hBka : sB.D k a ≤ s0.D k a)
    (h1 : s0.D a k < Infinity) (h2 : s0.D k a < Infinity) :
    (relax k sB a a).D a a ≤ s0.D a k + s0.D k a := by
  unfold relax
  split_ifs with hg hf
  · rw [updN_D, updD_D, if_pos ⟨rfl, rfl⟩]
    exact add_le_add hBak hBka
  · have := not_lt.mp hf
    linarith
  · exfalso
    rw [not_and_or] at hg
    rcases hg with hg | hg
    · exact hg (lt_of_le_of_lt hBak h1)
    · exact hg (lt_of_le_of_lt hBka h2)

/-- After the two inner loops of round `k`, a diagonal entry `(a,a)` with
`a` in both index lists is bounded by the start-state detour through `k`,
provided both halves of the detour are finite at the start. -/
theorem relaxBlock_D_diag_le (k : Vertex) (I J : List Vertex) (s : FWState) (a : Vertex)
    (haI : a ∈ I) (haJ : a ∈ J) (h1 : s.D a k < Infinity) (h2 : s.D k a < Infinity) :
    (relaxBlock k I J s).D a a ≤ s.D a k + s.D k a := by
  obtain ⟨I1, I2, hI⟩ := List.append_of_mem haI
  obtain ⟨J1, J2, hJ⟩ := List.append_of_mem haJ
  unfold relaxBlock
  rw [hI, foldl_split]
  refine le_trans (foldl_D_mono _ (fun s' i a' c' => relaxRow_D_mono k i J s' a' c') I2 _ a a) ?_
  set sA := I1.foldl (fun s i => relaxRow k i J s) s with hsA
  have hAak : sA.D a k ≤ s.D a k :=
    foldl_D_mono _ (fun s' i a' c' => relaxRow_D_mono k i J s' a' c') I1 s a k
  have hAka : sA.D k a ≤ s.D k a :=
    foldl_D_mono _ (fun s' i a' c' => relaxRow_D_mono k i J s' a' c') I1 s k a
  unfold relaxRow
  rw [hJ, foldl_split]
  refine le_trans (foldl_D_mono _ (fun s' j a' c' => relax_D_le k s' a j a' c') J2 _ a a) ?_
  refine relax_diag_le k s (J1.foldl (fun s j => relax k s a j) sA) a ?_ ?_ h1 h2
  · exact le_trans
      (foldl_D_mono _ (fun s' j a' c' => relax_D_le k s' a j a' c') J1 sA a k) hAak
  · exact le_trans
      (foldl_D_mono _ (fun s' j a' c' => relax_D_le k s' a j a' c') J1 sA k a) hAka

/-! Closed-form characterization of the initialized tables. -/

theorem FWinitRow_D_self (g : IG) (now : ℚ) (s : FWState) (a b : Vertex) :
    (FWinitRow g now s a).D a b =
      if b ∈ Neighbors g a ∧ Weight g now a b < Infinity then Weight g now a b
      else if b = a then 0
      else if b ∈ g.Vert then Infinity
      else s.D a b := by
  have hstage1 : ∀ (l : List Vertex) (s0 : FWState),
      (l.foldl (fun s v => updD s a v Infinity) s0).D a b =
        if b ∈ l then Infinity else s0.D a b := by
    intro l
    induction l with
    | nil => intro s0; simp
    | cons c l ih =>
      intro s0
      rw [List.foldl_cons, ih, updD_D]
      by_cases hbl : b ∈ l
      · simp [hbl]
      · by_cases hbc : b = c
        · simp [hbl, hbc]
        · simp [hbl, hbc]
  have hstage3 : ∀ (l : List Vertex) (s0 : FWState),
      (l.foldl
        (fun s v =>
          let w := Weight g now a v
          if w < Infinity then updN (updD s a v w) a v (some v) else s) s0).D a b =
        if b ∈ l ∧ Weight g now a b < Infinity then Weight g now a b else s0.D a b := by
    intro l
    induction l with
    | nil => intro s0; simp
    | cons c l ih =>
      intro s0
      rw [List.foldl_cons, ih]
      dsimp only
      by_cases hbl : b ∈ l ∧ Weight g now a b < Infinity
      · rw [if_pos hbl, if_pos (And.intro (List.mem_cons_of_mem c hbl.1) hbl.2)]
      · rw [if_neg hbl]
        by_cases hbc : b = c
        · subst hbc
          by_cases hw : Weight g now a b < Infinity
          · rw [if_pos hw, updN_D, updD_D, if_pos ⟨rfl, rfl⟩,
              if_pos (And.intro (List.mem_cons_self b l) hw)]
          · rw [if_neg hw,
              if_neg (fun h : b ∈ b :: l ∧ Weight g now a b < Infinity => hw h.2)]
        · have hcond : ¬ (b ∈ c :: l ∧ Weight g now a b < Infinity) := by
            intro h
            rcases List.mem_cons.mp h.1 with h1 | h1
            · exact hbc h1
            · exact hbl ⟨h1, h.2⟩
          rw [if_neg hcond]
          split_ifs with hw
          · rw [updN_D, updD_D, if_neg (fun h : a = a ∧ b = c => hbc h.2)]
          · rfl
  unfold FWinitRow
  dsimp only
  rw [hstage3, updD_D, hstage1]
  by_cases h1 : b ∈ Neighbors g a ∧ Weight g now a b < Infinity
  · rw [if_pos h1, if_pos h1]
  · rw [if_neg h1, if_neg h1]
    by_cases h2 : b = a
    · rw [if_pos (And.intro rfl h2), if_pos h2]
    · rw [if_neg (fun h : a = a ∧ b = a => h2 h.2), if_neg h2]

theorem FWinitRow_N_self (g : IG) (now : ℚ) (s : FWState) (a b : Vertex) :
    (FWinitRow g now s a).N a b =
      if b ∈ Neighbors g a ∧ Weight g now a b < Infinity then some b else s.N a b := by
  have hstage1 : ∀ (l : List Vertex) (s0 : FWState),
      (l.foldl (fun s v => updD s a v Infinity) s0).N a b = s0.N a b := by
    intro l
    induction l with
    | nil => intro s0; rfl
    | cons c l ih => intro s0; rw [List.foldl_cons, ih]; rfl
  have hstage3 : ∀ (l : List Vertex) (s0 : FWState),
      (l.foldl
        (fun s v =>
          let w := Weight g now a v
          if w < Infinity then updN (updD s a v w) a v (some v) else s) s0).N a b =
        if b ∈ l ∧ Weight g now a b < Infinity then some b else s0.N a b := by
    intro l
    induction l with
    | nil => intro s0; simp
    | cons c l ih =>
      intro s0
      rw [List.foldl_cons, ih]
      dsimp only
      by_cases hbl : b ∈ l ∧ Weight g now a b < Infinity
      · rw [if_pos hbl, if_pos (And.intro (List.mem_cons_of_mem c hbl.1) hbl.2)]
      · rw [if_neg hbl]
        by_cases hbc : b = c
        · subst hbc
          by_cases hw : Weight g now a b < Infinity
          · rw [if_pos hw, updN_N, updD_N, if_pos ⟨rfl, rfl⟩,
              if_pos (And.intro (List.mem_cons_self b l) hw)]
          · rw [if_neg hw,
              if_neg (fun h : b ∈ b :: l ∧ Weight g now a b < Infinity => hw h.2)]
        · have hcond : ¬ (b ∈ c :: l ∧ Weight g now a b < Infinity) := by
            intro h
            rcases List.mem_cons.mp h.1 with h1 | h1
            · exact hbc h1
            · exact hbl ⟨h1, h.2⟩
          rw [if_neg hcond]
          split_ifs with hw
          · rw [updN_N, updD_N, if_neg (fun h : a = a ∧ b = c => hbc h.2)]
          · rfl
  unfold FWinitRow
  dsimp only
  rw [hstage3, updD_N, hstage1]

theorem FWinit_D_char (g : IG) (now : ℚ) (hnd : g.Vert.Nodup) (a : Vertex)
    (ha : a ∈ g.Vert) (b : Vertex) : (FWinit g now).D a b = initD g now a b := by
  obtain ⟨l1, l2, hsplit⟩ := List.append_of_mem ha
  have hnotl2 : a ∉ l2 := by
    rw [hsplit] at hnd
    have := List.Nodup.of_append_right hnd
    exact (List.nodup_cons.mp this).1
  unfold FWinit
  rw [hsplit, foldl_split]
  have hpost : ∀ (l : List Vertex) (s0 : FWState), a ∉ l →
      ((l.foldl (FWinitRow g now) s0).D a b = s0.D a b ∧
        (l.foldl (FWinitRow g now) s0).N a b = s0.N a b) := by
    intro l
    induction l with
    | nil => intro s0 _; exact ⟨rfl, rfl⟩
    | cons c l ih =>
      intro s0 hc
      rw [List.foldl_cons]
      have hac : a ≠ c := fun h => hc (h ▸ List.mem_cons_self _ _)
      obtain ⟨hD, hN⟩ := ih (FWinitRow g now s0 c) (fun h => hc (List.mem_cons_of_mem _ h))
      exact ⟨hD.trans (FWinitRow_D_ne g now s0 c a b hac),
        hN.trans (FWinitRow_N_ne g now s0 c a b hac)⟩
  rw [(hpost l2 _ hnotl2).1, FWinitRow_D_self]
  have hl1 : a ∉ l1 := by
    rw [hsplit] at hnd
    intro hmem
    exact (List.disjoint_of_nodup_append hnd) hmem (List.mem_cons_self _ _)
  rw [(hpost l1 _ hl1).1]
  rfl

theorem FWinit_N_char (g : IG) (now : ℚ) (hnd : g.Vert.Nodup) (a : Vertex)
    (ha : a ∈ g.Vert) (b : Vertex) : (FWinit g now).N a b = initN g now a b := by
  obtain ⟨l1, l2, hsplit⟩ := List.append_of_mem ha
  have hnotl2 : a ∉ l2 := by
    rw [hsplit] at hnd
    have := List.Nodup.of_append_right hnd
    exact (List.nodup_cons.mp this).1
  unfold FWinit
  rw [hsplit, foldl_split]
  have hpost : ∀ (l : List Vertex) (s0 : FWState), a ∉ l →
      (l.foldl (FWinitRow g now) s0).N a b = s0.N a b := by
    intro l
    induction l with
    | nil => intro s0 _; rfl
    | cons c l ih =>
      intro s0 hc
      rw [List.foldl_cons]
      have hac : a ≠ c := fun h => hc (h ▸ List.mem_cons_self _ _)
      exact (ih (FWinitRow g now s0 c)
        (fun h => hc (List.mem_cons_of_mem _ h))).trans
        (FWinitRow_N_ne g now s0 c a b hac)
  rw [hpost l2 _ hnotl2, FWinitRow_N_self]
  have hl1 : a ∉ l1 := by
    rw [hsplit] at hnd
    intro hmem
    exact (List.disjoint_of_nodup_append hnd) hmem (List.mem_cons_self _ _)
  rw [hpost l1 _ hl1]
  rfl

theorem FWinit_D_notmem (g : IG) (now : ℚ) (a b : Vertex) (ha : a ∉ g.Vert) :
    (FWinit g now).D a b = 0 := by
  unfold FWinit
  have h : ∀ (l : List Vertex) (s0 : FWState), (∀ c ∈ l, c ∈ g.Vert) →
      (l.foldl (FWinitRow g now) s0).D a b = s0.D a b := by
    intro l
    induction l with
    | nil => intro s0 _; rfl
    | cons c l ih =>
      intro s0 hc
      rw [List.foldl_cons, ih _ (fun x hx => hc x (List.mem_cons_of_mem _ hx))]
      exact FWinitRow_D_ne g now s0 c a b
        (fun hac => ha (hac ▸ hc c (List.mem_cons_self _ _)))
  rw [h g.Vert _ (fun c hc => hc)]

theorem FWinit_N_notmem (g : IG) (now : ℚ) (a b : Vertex) (ha : a ∉ g.Vert) :
    (FWinit g now).N a b = none := by
  unfold FWinit
  have h : ∀ (l : List Vertex) (s0 : FWState), (∀ c ∈ l, c ∈ g.Vert) →
      (l.foldl (FWinitRow g now) s0).N a b = s0.N a b := by
    intro l
    induction l with
    | nil => intro s0 _; rfl
    | cons c l ih =>
      intro s0 hc
      rw [List.foldl_cons, ih _ (fun x hx => hc x (List.mem_cons_of_mem _ hx))]
      exact FWinitRow_N_ne g now s0 c a b
        (fun hac => ha (hac ▸ hc c (List.mem_cons_self _ _)))
  rw [h g.Vert _ (fun c hc => hc)]

theorem Infinity_pos : (0 : ℚ) < Infinity := by norm_num [Infinity]

/-- The full invariant holds after initialization, on a nonnegative-weight
graph with neighbor lists inside the vertex set. -/
theorem FWinit_inv (g : IG) (now : ℚ) (hnd : g.Vert.Nodup)
    (hE : ∀ u ∈ g.Vert, ∀ w ∈ Neighbors g u, w ∈ g.Vert)
    (hW : ∀ a b, 0 ≤ Weight g now a b) :
    FWInv g now (FWinit g now) := by
  refine ⟨?_, ?_, ?_, ?_, ?_, ?_, ?_⟩
  · intro a b
    by_cases ha : a ∈ g.Vert
    · rw [FWinit_D_char g now hnd a ha b]
      unfold initD
      split_ifs
      · exact hW a b
      · exact le_refl 0
      · exact le_of_lt Infinity_pos
      · exact le_refl 0
    · rw [FWinit_D_notmem g now a b ha]
  · intro a b
    by_cases ha : a ∈ g.Vert
    · rw [FWinit_D_char g now hnd a ha b]
      unfold initD
      split_ifs with h1
      · exact le_of_lt h1.2
      · exact le_of_lt Infinity_pos
      · exact le_refl _
      · exact le_of_lt Infinity_pos
    · rw [FWinit_D_notmem g now a b ha]
      exact le_of_lt Infinity_pos
  · intro a
    exact FWinit_D_diag g now a
  · intro a b hne
    by_cases ha : a ∈ g.Vert
    · rw [FWinit_N_char g now hnd a ha b] at hne
      unfold initN at hne
      split_ifs at hne with h1
      · exact ⟨ha, hE a ha b h1.1⟩
      · exact absurd rfl hne
    · rw [FWinit_N_notmem g now a b ha] at hne
      exact absurd rfl hne
  · intro a b ha hb hne hfin
    rw [FWinit_N_char g now hnd a ha b]
    rw [FWinit_D_char g now hnd a ha b] at hfin
    unfold initD at hfin
    unfold initN
    by_cases h1 : b ∈ Neighbors g a ∧ Weight g now a b < Infinity
    · rw [if_pos h1]
      simp
    · exfalso
      rw [if_neg h1, if_neg (show ¬ b = a from fun h => hne h.symm), if_pos hb] at hfin
      exact absurd hfin (lt_irrefl _)
  · intro i j m hij hN
    by_cases hi : i ∈ g.Vert
    swap
    · rw [FWinit_N_notmem g now i j hi] at hN
      cases hN
    rw [FWinit_N_char g now hnd i hi j] at hN
    unfold initN at hN
    by_cases h1 : j ∈ Neighbors g i ∧ Weight g now i j < Infinity
    swap
    · rw [if_neg h1] at hN
      cases hN
    rw [if_pos h1] at hN
    obtain rfl : j = m := Option.some.inj hN
    refine ⟨hE i hi j h1.1, Ne.symm hij, ?_, ?_, ?_⟩
    · rw [FWinit_D_char g now hnd i hi j]
      unfold initD
      rw [if_pos h1]
      exact h1.2
    · rw [FWinit_D_diag g now j]
      exact Infinity_pos
    · rw [FWinit_D_diag g now j, FWinit_D_char g now hnd i hi j]
      unfold initD
      rw [if_pos h1, add_zero]
  · intro t x hcyc
    have harc : ∀ p q, StepRel (FWinit g now).N t p q → q = t := by
      intro p q hpq
      obtain ⟨hpq1, _⟩ := hpq
      by_cases hp : p ∈ g.Vert
      · rw [FWinit_N_char g now hnd p hp t] at hpq1
        unfold initN at hpq1
        split_ifs at hpq1
        exact (Option.some.inj hpq1).symm
      · rw [FWinit_N_notmem g now p t hp] at hpq1
        cases hpq1
    obtain ⟨b, _, harcx⟩ := Relation.TransGen.tail'_iff.mp hcyc
    have hx : x = t := harc b x harcx
    subst hx
    obtain ⟨c, harc1, _⟩ := Relation.TransGen.head'_iff.mp hcyc
    exact harc1.2 rfl

/-! Round analysis: in a state with zero diagonal, the sequential round `k`
acts as a simultaneous pointwise update driven by `Fire` on the round-start
values, because the `k` row, the `k` column and the diagonal never fire. -/

theorem relax_eq (k : Vertex) (s : FWState) (i j : Vertex) :
    relax k s i j =
      if Fire s k i j then updN (updD s i j (s.D i k + s.D k j)) i j (s.N i k) else s := by
  unfold relax Fire
  by_cases hA : s.D i k < Infinity ∧ s.D k j < Infinity
  · by_cases hC : s.D i j > s.D i k + s.D k j
    · rw [if_pos hA, if_pos hC, if_pos ⟨hA.1, hA.2, hC⟩]
    · rw [if_pos hA, if_neg hC, if_neg (fun h => hC h.2.2)]
  · rw [if_neg hA, if_neg (fun h => hA ⟨h.1, h.2.1⟩)]

theorem Fire_col_k (s : FWState) (k a : Vertex) (hkk : s.D k k = 0) :
    ¬ Fire s k a k := by
  rintro ⟨_, _, h⟩
  rw [hkk] at h
  linarith

theorem Fire_row_k (s : FWState) (k b : Vertex) (hkk : s.D k k = 0) :
    ¬ Fire s k k b := by
  rintro ⟨_, _, h⟩
  rw [hkk] at h
  linarith

theorem relaxRow_other (k i : Vertex) (J : List Vertex) (s : FWState) (a b : Vertex)
    (ha : a ≠ i) :
    (relaxRow k i J s).D a b = s.D a b ∧ (relaxRow k i J s).N a b = s.N a b := by
  unfold relaxRow
  induction J generalizing s with
  | nil => exact ⟨rfl, rfl⟩
  | cons j J' ih =>
    rw [List.foldl_cons]
    obtain ⟨hD, hN⟩ := ih (relax k s i j)
    exact ⟨hD.trans (relax_D_of_ne k s i j a b (fun h => ha h.1)),
      hN.trans (relax_N_of_ne k s i j a b (fun h => ha h.1))⟩

theorem relaxRow_simul (k i : Vertex) (s : FWState) (hkk : s.D k k = 0) :
    ∀ (J : List Vertex) (P : Vertex → Prop), ∀ (_ : DecidablePred P), ∀ (sCur : FWState),
      J.Nodup → (∀ j ∈ J, ¬ P j) →
      (∀ b, sCur.D i b = if P b ∧ Fire s k i b then s.D i k + s.D k b else s.D i b) →
      (∀ b, sCur.N i b = if P b ∧ Fire s k i b then s.N i k else s.N i b) →
      (∀ b, sCur.D k b = s.D k b) →
      (∀ b, (relaxRow k i J sCur).D i b =
          if (P b ∨ b ∈ J) ∧ Fire s k i b then s.D i k + s.D k b else s.D i b) ∧
      (∀ b, (relaxRow k i J sCur).N i b =
          if (P b ∨ b ∈ J) ∧ Fire s k i b then s.N i k else s.N i b) := by
  intro J
  induction J with
  | nil =>
    intro P hP sCur _ _ hrowD hrowN _
    constructor
    · intro b
      rw [show relaxRow k i [] sCur = sCur from rfl, hrowD b]
      exact (if_congr (by simp) rfl rfl).symm
    · intro b
      rw [show relaxRow k i [] sCur = sCur from rfl, hrowN b]
      exact (if_congr (by simp) rfl rfl).symm
  | cons j J' ih =>
    intro P hP sCur hnd hdisj hrowD hrowN hrowk
    have hFik : ¬ Fire s k i k := Fire_col_k s k i hkk
    have hPj : ¬ P j := hdisj j (List.mem_cons_self _ _)
    have hDik : sCur.D i k = s.D i k := by
      rw [hrowD k, if_neg (fun h => hFik h.2)]
    have hNik : sCur.N i k = s.N i k := by
      rw [hrowN k, if_neg (fun h => hFik h.2)]
    have hDkj : sCur.D k j = s.D k j := hrowk j
    have hDij : sCur.D i j = s.D i j := by
      rw [hrowD j, if_neg (fun h => hPj h.1)]
    have hstep : relax k sCur i j =
        if Fire s k i j then updN (updD sCur i j (s.D i k + s.D k j)) i j (s.N i k)
        else sCur := by
      rw [relax_eq]
      have hiff : Fire sCur k i j ↔ Fire s k i j := by
        unfold Fire
        rw [hDik, hDkj, hDij]
      exact if_congr hiff (by rw [hDik, hDkj, hNik]) rfl
    have hunfold : relaxRow k i (j :: J') sCur = relaxRow k i J' (relax k sCur i j) := rfl
    rw [hunfold, hstep]
    have hmem : ∀ b : Vertex, ((P b ∨ b = j) ∨ b ∈ J') ↔ (P b ∨ b ∈ j :: J') := by
      intro b
      simp only [List.mem_cons]
      tauto
    by_cases hF : Fire s k i j
    · rw [if_pos hF]
      have hik : i ≠ k := by
        intro h
        exact Fire_row_k s k j hkk (h ▸ hF)
      have hres := ih (fun b => P b ∨ b = j) (fun b => instDecidableOr)
        (updN (updD sCur i j (s.D i k + s.D k j)) i j (s.N i k))
        (List.nodup_cons.mp hnd).2
        (fun b hb => fun hPb => by
          rcases hPb with hPb | hPb
          · exact hdisj b (List.mem_cons_of_mem _ hb) hPb
          · exact (List.nodup_cons.mp hnd).1 (hPb ▸ hb))
        (fun b => by
          rw [updN_D, updD_D]
          by_cases hbj : b = j
          · subst hbj
            rw [if_pos ⟨rfl, rfl⟩, if_pos ⟨Or.inr rfl, hF⟩]
          · rw [if_neg (fun h : i = i ∧ b = j => hbj h.2), hrowD b]
            exact (if_congr (by tauto) rfl rfl))
        (fun b => by
          rw [updN_N, updD_N]
          by_cases hbj : b = j
          · subst hbj
            rw [if_pos ⟨rfl, rfl⟩, if_pos ⟨Or.inr rfl, hF⟩]
          · rw [if_neg (fun h : i = i ∧ b = j => hbj h.2), hrowN b]
            exact (if_congr (by tauto) rfl rfl))
        (fun b => by
          rw [updN_D, updD_D, if_neg (fun h : k = i ∧ b = j => hik h.1.symm)]
          exact hrowk b)
      constructor
      · intro b
        rw [hres.1 b]
        exact if_congr (and_congr_left' (hmem b)) rfl rfl
      · intro b
        rw [hres.2 b]
        exact if_congr (and_congr_left' (hmem b)) rfl rfl
    · rw [if_neg hF]
      have hres := ih (fun b => P b ∨ b = j) (fun b => instDecidableOr) sCur
        (List.nodup_cons.mp hnd).2
        (fun b hb => fun hPb => by
          rcases hPb with hPb | hPb
          · exact hdisj b (List.mem_cons_of_mem _ hb) hPb
          · exact (List.nodup_cons.mp hnd).1 (hPb ▸ hb))
        (fun b => by
          by_cases hbj : b = j
          · subst hbj
            rw [hDij, if_neg (fun h => hF h.2)]
          · rw [hrowD b]
            exact (if_congr (by tauto) rfl rfl))
        (fun b => by
          by_cases hbj : b = j
          · subst hbj
            rw [hrowN b, if_neg (fun h => hF h.2), if_neg (fun h => hF h.2)]
          · rw [hrowN b]
            exact (if_congr (by tauto) rfl rfl))
        hrowk
      constructor
      · intro b
        rw [hres.1 b]
        exact if_congr (and_congr_left' (hmem b)) rfl rfl
      · intro b
        rw [hres.2 b]
        exact if_congr (and_congr_left' (hmem b)) rfl rfl

theorem relaxBlock_simul_aux (k : Vertex) (VL : List Vertex) (s : FWState)
    (hkk : s.D k k = 0) (hndVL : VL.Nodup) :
    ∀ (I : List Vertex) (P : Vertex → Prop), ∀ (_ : DecidablePred P), ∀ (sCur : FWState),
      I.Nodup → (∀ a ∈ I, ¬ P a) →
      (∀ a b, sCur.D a b =
        if P a ∧ b ∈ VL ∧ Fire s k a b then s.D a k + s.D k b else s.D a b) →
      (∀ a b, sCur.N a b =
        if P a ∧ b ∈ VL ∧ Fire s k a b then s.N a k else s.N a b) →
      (∀ a b, (relaxBlock k I VL sCur).D a b =
          if (P a ∨ a ∈ I) ∧ b ∈ VL ∧ Fire s k a b then s.D a k + s.D k b else s.D a b) ∧
      (∀ a b, (relaxBlock k I VL sCur).N a b =
          if (P a ∨ a ∈ I) ∧ b ∈ VL ∧ Fire s k a b then s.N a k else s.N a b) := by
  intro I
  induction I with
  | nil =>
    intro P hP sCur _ _ hinvD hinvN
    constructor
    · intro a b
      rw [show relaxBlock k [] VL sCur = sCur from rfl, hinvD a b]
      exact (if_congr (and_congr_left' (by simp)) rfl rfl).symm
    · intro a b
      rw [show relaxBlock k [] VL sCur = sCur from rfl, hinvN a b]
      exact (if_congr (and_congr_left' (by simp)) rfl rfl).symm
  | cons i I' ih =>
    intro P hP sCur hnd hdisj hinvD hinvN
    have hPi : ¬ P i := hdisj i (List.mem_cons_self _ _)
    have hunfold : relaxBlock k (i :: I') VL sCur =
        relaxBlock k I' VL (relaxRow k i VL sCur) := rfl
    rw [hunfold]
    have hrow := relaxRow_simul k i s hkk VL (fun _ => False)
      (fun b => instDecidableFalse) sCur hndVL (fun _ _ => not_false)
      (fun b => by
        simp only [false_and, if_false]
        rw [hinvD i b, if_neg (fun h : P i ∧ b ∈ VL ∧ Fire s k i b => hPi h.1)])
      (fun b => by
        simp only [false_and, if_false]
        rw [hinvN i b, if_neg (fun h : P i ∧ b ∈ VL ∧ Fire s k i b => hPi h.1)])
      (fun b => by
        rw [hinvD k b,
          if_neg (fun h : P k ∧ b ∈ VL ∧ Fire s k k b => Fire_row_k s k b hkk h.2.2)])
    have hmem : ∀ a : Vertex, ((P a ∨ a = i) ∨ a ∈ I') ↔ (P a ∨ a ∈ i :: I') := by
      intro a
      simp only [List.mem_cons]
      tauto
    have hres := ih (fun a => P a ∨ a = i) (fun a => instDecidableOr)
      (relaxRow k i VL sCur)
      (List.nodup_cons.mp hnd).2
      (fun a ha => fun hPa => by
        rcases hPa with hPa | hPa
        · exact hdisj a (List.mem_cons_of_mem _ ha) hPa
        · exact (List.nodup_cons.mp hnd).1 (hPa ▸ ha))
      (fun a b => by
        by_cases hai : a = i
        · subst hai
          rw [hrow.1 b]
          exact if_congr (by tauto) rfl rfl
        · rw [(relaxRow_other k i VL sCur a b hai).1, hinvD a b]
          exact if_congr (by tauto) rfl rfl)
      (fun a b => by
        by_cases hai : a = i
        · subst hai
          rw [hrow.2 b]
          exact if_congr (by tauto) rfl rfl
        · rw [(relaxRow_other k i VL sCur a b hai).2, hinvN a b]
          exact if_congr (by tauto) rfl rfl)
    constructor
    · intro a b
      rw [hres.1 a b]
      exact if_congr (and_congr_left' (hmem a)) rfl rfl
    · intro a b
      rw [hres.2 a b]
      exact if_congr (and_congr_left' (hmem a)) rfl rfl

/-- In a zero-diagonal state, round `k` of the triple loop computes the
simultaneous `Fire`-driven update of all pairs, in terms of the round-start
values. -/
theorem FWround_simul (g : IG) (k : Vertex) (s : FWState)
    (hnd : g.Vert.Nodup) (hkk : s.D k k = 0) :
    (∀ a b, (FWround g k s).D a b =
        if a ∈ g.Vert ∧ b ∈ g.Vert ∧ Fire s k a b then s.D a k + s.D k b else s.D a b) ∧
    (∀ a b, (FWround g k s).N a b =
        if a ∈ g.Vert ∧ b ∈ g.Vert ∧ Fire s k a b then s.N a k else s.N a b) := by
  rw [FWround_eq_relaxBlock]
  have hres := relaxBlock_simul_aux k g.Vert s hkk hnd g.Vert (fun _ => False)
    (fun a => instDecidableFalse) s hnd (fun _ _ => not_false)
    (fun a b => by simp only [false_and, if_false])
    (fun a b => by simp only [false_and, if_false])
  constructor
  · intro a b
    rw [hres.1 a b]
    exact if_congr (and_congr_left' (by simp)) rfl rfl
  · intro a b
    rw [hres.2 a b]
    exact if_congr (and_congr_left' (by simp)) rfl rfl

/-- A round of the triple loop preserves the invariant, provided weights are
nonnegative and no diagonal entry would fire (no negative cycle through `k`
is detected in this round). -/
theorem FWround_inv (g : IG) (now : ℚ) (k : Vertex) (s : FWState)
    (hnd : g.Vert.Nodup) (hk : k ∈ g.Vert)
    (hW : ∀ a b, 0 ≤ Weight g now a b)
    (hInv : FWInv g now s) (hnofire : ∀ a, ¬ Fire s k a a) :
    FWInv g now (FWround g k s) := by
  obtain ⟨h0, hI, hdiag, hsupp, hP0, hchain, hnocyc⟩ := hInv
  have hkk : s.D k k = 0 := hdiag k
  obtain ⟨hD, hN⟩ := FWround_simul g k s hnd hkk
  have h0' : ∀ a b, 0 ≤ (FWround g k s).D a b := by
    intro a b
    rw [hD a b]
    split_ifs with hc
    · have h1 := h0 a k
      have h2 := h0 k b
      linarith
    · exact h0 a b
  have hI' : ∀ a b, (FWround g k s).D a b ≤ Infinity := by
    intro a b
    rw [hD a b]
    split_ifs with hc
    · have h1 := hc.2.2.2.2
      have h2 := hI a b
      linarith
    · exact hI a b
  have hdiag' : ∀ a, (FWround g k s).D a a = 0 := by
    intro a
    rw [hD a a, if_neg (fun hc : a ∈ g.Vert ∧ a ∈ g.Vert ∧ Fire s k a a => hnofire a hc.2.2)]
    exact hdiag a
  have hsupp' : ∀ a b, (FWround g k s).N a b ≠ none → a ∈ g.Vert ∧ b ∈ g.Vert := by
    intro a b hne
    rw [hN a b] at hne
    by_cases hc : a ∈ g.Vert ∧ b ∈ g.Vert ∧ Fire s k a b
    · exact ⟨hc.1, hc.2.1⟩
    · rw [if_neg hc] at hne
      exact hsupp a b hne
  have hP0' : ∀ a b, a ∈ g.Vert → b ∈ g.Vert → a ≠ b →
      (FWround g k s).D a b < Infinity → (FWround g k s).N a b ≠ none := by
    intro a b ha hb hab hfin
    rw [hN a b]
    by_cases hc : a ∈ g.Vert ∧ b ∈ g.Vert ∧ Fire s k a b
    · rw [if_pos hc]
      have hak : a ≠ k := fun h => Fire_row_k s k b hkk (h ▸ hc.2.2)
      exact hP0 a k ha hk hak hc.2.2.1
    · rw [if_neg hc]
      rw [hD a b, if_neg hc] at hfin
      exact hP0 a b ha hb hab hfin
  have hchain' : ChainInv g now (FWround g k s) := by
    intro i j m hij hNm
    rw [hN i j] at hNm
    by_cases hc : i ∈ g.Vert ∧ j ∈ g.Vert ∧ Fire s k i j
    · rw [if_pos hc] at hNm
      have hik : i ≠ k := fun h => Fire_row_k s k j hkk (h ▸ hc.2.2)
      obtain ⟨hmV, hmi, hDikfin, hDmkfin, hWc⟩ := hchain i k m hik hNm
      have hFire := hc.2.2
      have hDmk_le : s.D m k ≤ s.D i k := by
        have := hW i m
        linarith
      have hDij' : (FWround g k s).D i j = s.D i k + s.D k j := by
        rw [hD i j, if_pos hc]
      refine ⟨hmV, hmi, ?_, ?_, ?_⟩
      · rw [hDij']
        have h1 := hFire.2.2
        have h2 := hI i j
        linarith
      · rw [hD m j]
        by_cases hcm : m ∈ g.Vert ∧ j ∈ g.Vert ∧ Fire s k m j
        · rw [if_pos hcm]
          have h1 := hcm.2.2.2.2
          have h2 := hI m j
          linarith
        · rw [if_neg hcm]
          have hnf : ¬ Fire s k m j := fun hf => hcm ⟨hmV, hc.2.1, hf⟩
          have hle : s.D m j ≤ s.D m k + s.D k j := by
            by_contra hgt
            push_neg at hgt
            exact hnf ⟨lt_of_le_of_lt hDmk_le hFire.1, hFire.2.1, hgt⟩
          have h1 := hFire.2.2
          have h2 := hI i j
          linarith
      · rw [hDij', hD m j]
        by_cases hcm : m ∈ g.Vert ∧ j ∈ g.Vert ∧ Fire s k m j
        · rw [if_pos hcm]
          linarith [hWc]
        · rw [if_neg hcm]
          have hnf : ¬ Fire s k m j := fun hf => hcm ⟨hmV, hc.2.1, hf⟩
          have hle : s.D m j ≤ s.D m k + s.D k j := by
            by_contra hgt
            push_neg at hgt
            exact hnf ⟨lt_of_le_of_lt hDmk_le hFire.1, hFire.2.1, hgt⟩
          linarith [hWc]
    · rw [if_neg hc] at hNm
      obtain ⟨hmV, hmi, hDijfin, hDmjfin, hWc⟩ := hchain i j m hij hNm
      have hDij' : (FWround g k s).D i j = s.D i j := by
        rw [hD i j, if_neg hc]
      refine ⟨hmV, hmi, ?_, ?_, ?_⟩
      · rw [hDij']
        exact hDijfin
      · rw [hD m j]
        by_cases hcm : m ∈ g.Vert ∧ j ∈ g.Vert ∧ Fire s k m j
        · rw [if_pos hcm]
          have h1 := hcm.2.2.2.2
          have h2 := hI m j
          linarith
        · rw [if_neg hcm]
          exact hDmjfin
      · rw [hDij', hD m j]
        by_cases hcm : m ∈ g.Vert ∧ j ∈ g.Vert ∧ Fire s k m j
        · rw [if_pos hcm]
          have h1 := hcm.2.2.2.2
          linarith [hWc]
        · rw [if_neg hcm]
          exact hWc
  refine ⟨h0', hI', hdiag', hsupp', hP0', hchain', ?_⟩
  intro t x hcyc
  have harc_le : ∀ a b, StepRel (FWround g k s).N t a b →
      (FWround g k s).D b t ≤ (FWround g k s).D a t := by
    intro a b hab
    obtain ⟨_, _, _, _, hWc⟩ := hchain' a t b hab.2 hab.1
    have := hW a b
    linarith
  have htrans_le : ∀ a b, Relation.TransGen (StepRel (FWround g k s).N t) a b →
      (FWround g k s).D b t ≤ (FWround g k s).D a t := by
    intro a b hab
    induction hab with
    | single h => exact harc_le _ _ h
    | tail hab h ih => exact le_trans (harc_le _ _ h) ih
  have hUFarc : ∀ a b, StepRel (FWround g k s).N t a b →
      (FWround g k s).D b t = (FWround g k s).D a t →
      ¬ (a ∈ g.Vert ∧ t ∈ g.Vert ∧ Fire s k a t) →
      ¬ (b ∈ g.Vert ∧ t ∈ g.Vert ∧ Fire s k b t) := by
    intro a b hab heq hUa hFb
    have hNat : s.N a t = some b := by
      have h1 := hab.1
      rw [hN a t, if_neg hUa] at h1
      exact h1
    obtain ⟨_, _, _, _, hWc⟩ := hchain a t b hab.2 hNat
    have hDa : (FWround g k s).D a t = s.D a t := by
      rw [hD a t, if_neg hUa]
    have hDb : (FWround g k s).D b t = s.D b k + s.D k t := by
      rw [hD b t, if_pos hFb]
    have hlt : s.D b k + s.D k t < s.D b t := hFb.2.2.2.2
    have hWab := hW a b
    rw [hDa, hDb] at heq
    linarith
  have hUprop : ∀ a, ¬ (a ∈ g.Vert ∧ t ∈ g.Vert ∧ Fire s k a t) →
      ∀ y, Relation.TransGen (StepRel (FWround g k s).N t) a y →
      (FWround g k s).D a t ≤ (FWround g k s).D y t →
      ¬ (y ∈ g.Vert ∧ t ∈ g.Vert ∧ Fire s k y t) := by
    intro a hUa y hay
    induction hay with
    | single h =>
      intro hle
      exact hUFarc _ _ h (le_antisymm (harc_le _ _ h) hle) hUa
    | @tail b c hab harc2 ih =>
      intro hle
      have h1 : (FWround g k s).D c t ≤ (FWround g k s).D b t := harc_le _ _ harc2
      have h2 : (FWround g k s).D b t ≤ (FWround g k s).D a t := htrans_le _ _ hab
      have hUb := ih (by linarith)
      exact hUFarc _ _ harc2 (le_antisymm h1 (by linarith)) hUb
  by_cases hCx : x ∈ g.Vert ∧ t ∈ g.Vert ∧ Fire s k x t
  · have hallF : ∀ y, Relation.TransGen (StepRel (FWround g k s).N t) x y →
        Relation.TransGen (StepRel (FWround g k s).N t) y x →
        (y ∈ g.Vert ∧ t ∈ g.Vert ∧ Fire s k y t) := by
      intro y hxy hyx
      by_contra hUy
      have h1 : (FWround g k s).D y t ≤ (FWround g k s).D x t := htrans_le _ _ hxy
      exact hUprop y hUy x hyx h1 hCx
    have hkbuild : ∀ y, Relation.TransGen (StepRel (FWround g k s).N t) x y →
        Relation.TransGen (StepRel (FWround g k s).N t) y x →
        Relation.TransGen (StepRel s.N k) x y := by
      intro y hxy
      induction hxy with
      | @single b h =>
        intro _
        have hxk : x ≠ k := fun hh => Fire_row_k s k t hkk (hh ▸ hCx.2.2)
        have hNxk : s.N x k = some b := by
          have h1 := h.1
          rw [hN x t, if_pos hCx] at h1
          exact h1
        exact Relation.TransGen.single ⟨hNxk, hxk⟩
      | @tail b c hab harc2 ih =>
        intro hcx
        have hbx : Relation.TransGen (StepRel (FWround g k s).N t) b x :=
          Relation.TransGen.head harc2 hcx
        have hold := ih hbx
        have hCb := hallF b hab hbx
        have hbk : b ≠ k := fun hh => Fire_row_k s k t hkk (hh ▸ hCb.2.2)
        have hNbk : s.N b k = some c := by
          have h1 := harc2.1
          rw [hN b t, if_pos hCb] at h1
          exact h1
        exact hold.tail ⟨hNbk, hbk⟩
    exact hnocyc k x (hkbuild x hcyc hcyc)
  · have hUbuild : ∀ y, Relation.TransGen (StepRel (FWround g k s).N t) x y →
        (FWround g k s).D x t ≤ (FWround g k s).D y t →
        Relation.TransGen (StepRel s.N t) x y := by
      intro y hxy
      induction hxy with
      | @single b h =>
        intro _
        have hNxt : s.N x t = some b := by
          have h1 := h.1
          rw [hN x t, if_neg hCx] at h1
          exact h1
        exact Relation.TransGen.single ⟨hNxt, h.2⟩
      | @tail b c hab harc2 ih =>
        intro hle
        have h1 : (FWround g k s).D c t ≤ (FWround g k s).D b t := harc_le _ _ harc2
        have h2 : (FWround g k s).D b t ≤ (FWround g k s).D x t := htrans_le _ _ hab
        have hxb : (FWround g k s).D x t ≤ (FWround g k s).D b t := by linarith
        have hold := ih hxb
        have hUb : ¬ (b ∈ g.Vert ∧ t ∈ g.Vert ∧ Fire s k b t) :=
          hUprop x hCx b hab hxb
        have hNbt : s.N b t = some c := by
          have h1 := harc2.1
          rw [hN b t, if_neg hUb] at h1
          exact h1
        exact hold.tail ⟨hNbt, harc2.2⟩
    exact hnocyc t x (hUbuild x hcyc (le_refl _))

/-! Running the invariant through the whole triple loop, and chasing the
next table with `Path`. -/

theorem rounds_inv (g : IG) (now : ℚ) (hnd : g.Vert.Nodup)
    (hW : ∀ a b, 0 ≤ Weight g now a b) :
    ∀ (K : List Vertex), (∀ k ∈ K, k ∈ g.Vert) → ∀ s, FWInv g now s →
      FWInv g now (K.foldl (fun s k => FWround g k s) s) := by
  intro K
  induction K with
  | nil => intro _ s h; exact h
  | cons k K' ih =>
    intro hKV s hInv
    rw [List.foldl_cons]
    refine ih (fun k' hk' => hKV k' (List.mem_cons_of_mem _ hk')) _ ?_
    refine FWround_inv g now k s hnd (hKV k (List.mem_cons_self _ _)) hW hInv ?_
    intro a hf
    have h1 := hInv.1 a k
    have h2 := hInv.1 k a
    have h3 := hInv.2.2.1 a
    have h4 := hf.2.2
    linarith

theorem FloydWarshallOnce_inv (g : IG) (now : ℚ) (hnd : g.Vert.Nodup)
    (hE : ∀ u ∈ g.Vert, ∀ w ∈ Neighbors g u, w ∈ g.Vert)
    (hW : ∀ a b, 0 ≤ Weight g now a b) :
    FWInv g now (FloydWarshallOnce g now) :=
  rounds_inv g now hnd hW g.Vert (fun _ h => h) (FWinit g now)
    (FWinit_inv g now hnd hE hW)

theorem PathLoop_zero (next : Vertex → Vertex → Option Vertex) (v u : Vertex)
    (acc : List Vertex) :
    PathLoop next v 0 u acc = if u = v then some acc else none := rfl

theorem PathLoop_succ (next : Vertex → Vertex → Option Vertex) (v : Vertex) (f : ℕ)
    (u : Vertex) (acc : List Vertex) :
    PathLoop next v (f + 1) u acc =
      if u = v then some acc
      else
        match next u v with
        | some w => PathLoop next v f w (acc ++ [w])
        | none => none := rfl

theorem chain_last_reflTrans {r : Vertex → Vertex → Prop} :
    ∀ (l : List Vertex) (x c : Vertex), List.Chain' r l → x ∈ l →
      l.getLast? = some c → Relation.ReflTransGen r x c := by
  intro l
  induction l with
  | nil =>
    intro x c _ hx _
    cases hx
  | cons a l ih =>
    intro x c hch hx hlast
    cases l with
    | nil =>
      rw [List.mem_singleton] at hx
      subst hx
      have hxc : x = c := by simpa using hlast
      rw [← hxc]
    | cons b l' =>
      have hab : r a b := (List.chain'_cons.mp hch).1
      have hch' : List.Chain' r (b :: l') := (List.chain'_cons.mp hch).2
      have hlast' : (b :: l').getLast? = some c := by
        rw [List.getLast?_cons_cons] at hlast
        exact hlast
      rcases List.mem_cons.mp hx with hxa | hxl
      · subst hxa
        exact Relation.ReflTransGen.head hab (ih b c hch' (List.mem_cons_self _ _) hlast')
      · exact ih x c hch' hxl hlast'

/-- A nonnegative `Weight` follows from all stored pings being nonnegative. -/
theorem Weight_nonneg_of_pings (g : IG) (now : ℚ)
    (h : ∀ u, ∀ p ∈ g.edges u, 0 ≤ p.2.ping) (a b : Vertex) :
    0 ≤ Weight g now a b := by
  unfold Weight
  split_ifs with hab
  · exact le_refl 0
  · cases hel : edgeLookup g a b with
    | none => exact le_of_lt Infinity_pos
    | some l =>
      show 0 ≤ if l.time + g.NodeReportTimeout < now then Infinity else l.ping
      split_ifs
      · exact le_of_lt Infinity_pos
      · unfold edgeLookup at hel
        obtain ⟨p, hfind, hsnd⟩ := Option.map_eq_some'.mp hel
        have hmem := List.mem_of_find?_eq_some hfind
        rw [← hsnd]
        exact h a p hmem

/-- The fueled chase of the next table toward `v`: from any current vertex
with finite remaining distance, and any sound accumulator, the loop of
`Path` produces a duplicate-free path inside the vertex set ending at `v`,
given enough fuel. -/
theorem PathLoop_reaches (g : IG) (now : ℚ) (s : FWState) (hInv : FWInv g now s)
    (v : Vertex) (hv : v ∈ g.Vert) :
    ∀ (fuel : ℕ) (c : Vertex) (acc : List Vertex) (u : Vertex),
      c ∈ g.Vert → s.D c v < Infinity →
      acc.getLast? = some c → acc.head? = some u → acc.Nodup →
      (∀ y ∈ acc, y ∈ g.Vert) → List.Chain' (StepRel s.N v) acc →
      g.Vert.length + 1 ≤ fuel + acc.length →
      ∃ p, PathLoop s.N v fuel c acc = some p ∧ p.Nodup ∧
        p.length ≤ g.Vert.length ∧ p.head? = some u ∧ p.getLast? = some v := by
  obtain ⟨h0, hI, hdiag, hsupp, hP0, hchain, hnocyc⟩ := hInv
  intro fuel
  induction fuel with
  | zero =>
    intro c acc u _ _ hlast hhead hnd hsub _ hcount
    by_cases hcv : c = v
    · subst hcv
      exact ⟨acc, by rw [PathLoop_zero, if_pos rfl], hnd,
        (List.subperm_of_subset hnd hsub).length_le, hhead, hlast⟩
    · exfalso
      have hlen : acc.length ≤ g.Vert.length :=
        (List.subperm_of_subset hnd hsub).length_le
      omega
  | succ f ih =>
    intro c acc u hc hfin hlast hhead hnd hsub hch hcount
    by_cases hcv : c = v
    · subst hcv
      exact ⟨acc, by rw [PathLoop_succ, if_pos rfl], hnd,
        (List.subperm_of_subset hnd hsub).length_le, hhead, hlast⟩
    · have hNcv : s.N c v ≠ none := hP0 c v hc hv hcv hfin
      obtain ⟨w, hw⟩ := Option.ne_none_iff_exists'.mp hNcv
      obtain ⟨hwV, hwc, _, hDwv, _⟩ := hchain c v w hcv hw
      have hwacc : w ∉ acc := by
        intro hmem
        have hrt : Relation.ReflTransGen (StepRel s.N v) w c :=
          chain_last_reflTrans acc w c hch hmem hlast
        exact hnocyc v w (Relation.TransGen.tail' hrt ⟨hw, hcv⟩)
      have hchain2 : List.Chain' (StepRel s.N v) (acc ++ [w]) := by
        rw [List.chain'_append]
        refine ⟨hch, List.chain'_singleton _, ?_⟩
        intro x hx y hy
        rw [hlast, Option.mem_def] at hx
        have hxc : c = x := Option.some.inj hx
        have hyw : y = w := by
          rw [show ([w] : List Vertex).head? = some w from rfl, Option.mem_def] at hy
          exact (Option.some.inj hy).symm
        rw [← hxc, hyw]
        exact ⟨hw, hcv⟩
      have hstep : PathLoop s.N v (f + 1) c acc = PathLoop s.N v f w (acc ++ [w]) := by
        rw [PathLoop_succ, if_neg hcv, hw]
      rw [hstep]
      refine ih w (acc ++ [w]) u hwV hDwv ?_ ?_ ?_ ?_ hchain2 ?_
      · rw [List.getLast?_concat]
      · cases acc with
        | nil => cases hlast
        | cons a t => simpa using hhead
      · refine List.Nodup.append hnd (List.nodup_singleton _) ?_
        intro y hy hyw
        rw [List.mem_singleton] at hyw
        subst hyw
        exact hwacc hy
      · intro y hy
        rcases List.mem_append.mp hy with hy | hy
        · exact hsub y hy
        · rw [List.mem_singleton] at hy
          subst hy
          exact hwV
      · rw [List.length_append, List.length_singleton]
        omega

/-- C7, counterexample: on the saturating graph `gC7` (edge weights −30000,
90000, 20000 along `1 → 2 → 3 → 4`), `FloydWarshall(false)` reports no error
and produces `next[1][4] = 2` while `next[2][4] = None`: following `next`
from 1 toward 4 dereferences a nil entry after one hop (`Path` returns no
path), so the table does not satisfy the claimed reachability property for
arbitrary (float-representable) edge weights. -/
theorem FloydWarshall_path_counterexample :
    (FloydWarshall false gC7 0).2.2 = none ∧
    (FloydWarshall false gC7 0).2.1 1 4 = some 2 ∧
    (FloydWarshall false gC7 0).2.1 2 4 = none ∧
    Path gC7.Vert.length 1 4 (FloydWarshall false gC7 0).2.1 = none := by
  with_unfolding_all decide

/-- C7, amended: over a duplicate-free vertex list whose adjacency keys stay
in the vertex set, and with every edge weight nonnegative (as is the case
after the negative-value clamp), every pair `(u,v)` with `next[u][v] ≠ None`
in the tables of `FloydWarshall(false)` admits the full chase: `Path`
(with fuel `|V|`, which the Go while loop needs) returns a path starting at
`u` and ending at `v` with no vertex appearing twice and at most `|V|`
nodes, i.e. at most `|V| − 1` hops. -/
theorem FloydWarshall_path_reaches (g : IG) (now : ℚ)
    (hnd : g.Vert.Nodup)
    (hE : ∀ u ∈ g.Vert, ∀ w ∈ Neighbors g u, w ∈ g.Vert)
    (hW : ∀ a b, 0 ≤ Weight g now a b)
    (u v : Vertex)
    (hN : (FloydWarshall false g now).2.1 u v ≠ none) :
    ∃ p, Path g.Vert.length u v (FloydWarshall false g now).2.1 = some p ∧
      p.Nodup ∧ p.length ≤ g.Vert.length ∧ p.head? = some u ∧ p.getLast? = some v := by
  have hInv : FWInv g now (FloydWarshallOnce g now) := FloydWarshallOnce_inv g now hnd hE hW
  have hND : hasNegDiag g (FloydWarshallOnce g now) = false := by
    rw [hasNegDiag_eq_false_iff]
    intro i _
    rw [hInv.2.2.1 i]
    exact lt_irrefl 0
  have hres := FloydWarshall_false_of_success g now hND
  have hNeq : (FloydWarshall false g now).2.1 = (FloydWarshallOnce g now).N := by
    rw [hres]
  rw [hNeq] at hN ⊢
  have hUV := hInv.2.2.2.1 u v hN
  by_cases huv : u = v
  · subst huv
    obtain ⟨w, hw⟩ := Option.ne_none_iff_exists'.mp hN
    refine ⟨[u], ?_, List.nodup_singleton u, ?_, rfl, by simp⟩
    · unfold Path
      rw [hw]
      cases hlen : g.Vert.length with
      | zero => rw [PathLoop_zero, if_pos rfl]
      | succ n => rw [PathLoop_succ, if_pos rfl]
    · have hpos := List.length_pos.mpr (List.ne_nil_of_mem hUV.1)
      rw [List.length_singleton]
      omega
  · obtain ⟨m, hm⟩ := Option.ne_none_iff_exists'.mp hN
    have hfin : (FloydWarshallOnce g now).D u v < Infinity :=
      (hInv.2.2.2.2.2.1 u v m huv hm).2.2.1
    obtain ⟨p, hp, hnodup, hlen, hhead, hlast⟩ :=
      PathLoop_reaches g now (FloydWarshallOnce g now) hInv v hUV.2 g.Vert.length u [u] u
        hUV.1 hfin (by simp) rfl (List.nodup_singleton u)
        (by
          intro y hy
          rw [List.mem_singleton] at hy
          subst hy
          exact hUV.1)
        (List.chain'_singleton u)
        (by simp)
    refine ⟨p, ?_, hnodup, hlen, hhead, hlast⟩
    unfold Path
    rw [hm]
    exact hp

/-- C7, witness: the amended theorem at the two-vertex graph `gC7w` with its
single nonnegative fresh edge `1 → 2`. -/
theorem FloydWarshall_path_reaches_witness :
    ∃ p, Path gC7w.Vert.length 1 2 (FloydWarshall false gC7w 0).2.1 = some p ∧
      p.Nodup ∧ p.length ≤ gC7w.Vert.length ∧ p.head? = some 1 ∧ p.getLast? = some 2 :=
  FloydWarshall_path_reaches gC7w 0 (by with_unfolding_all decide)
    (by with_unfolding_all decide)
    (Weight_nonneg_of_pings gC7w 0 (by
      intro u p hp
      by_cases hu : u = 1
      · subst hu
        rw [show gC7w.edges 1 = [(2, mkLat 1 0)] from rfl, List.mem_singleton] at hp
        subst hp
        norm_num [mkLat]
      · rw [show gC7w.edges u = if u = 1 then [(2, mkLat 1 0)] else [] from rfl,
          if_neg hu] at hp
        cases hp))
    1 2 (by with_unfolding_all decide)

end EG
